import Mathlib

/-!
Verification of the `json-rs-prac` JSON parser (Rust, nom 5 combinators).

The embedding works on `List Char` inputs (Rust `&str` is a sequence of
chars here; all source parsers treat it char-by-char).  A parser result is
either `ok rest value` (nom `Ok((rest, value))`), `err e` (nom
`Err(Err::Error(e))` with the default error type `(&str, ErrorKind)`), or
`panic` (a Rust panic; the source can panic through `.unwrap()` in
`hex_escape_char`).  The source never produces `Err::Failure` (no `cut`)
and uses only `complete` combinators (no `Incomplete`), so those nom
outcomes need no constructors.

The source's `Value::Number(f32)` payload is modelled as the exact rational
value of the matched decimal literal (`decimalVal`): no claim in scope
depends on `f32` rounding or overflow, and every numeric literal appearing
in a settled statement is exactly representable in `f32`.

`Value::Object(HashMap<String, Value>)` is modelled as an association list
in a canonical order (first-insertion order, later value for a duplicate
key overwriting the earlier one in place), matching `HashMap`'s
last-write-wins insertion; `HashMap` equality is order-independent, and the
canonical order makes it deterministic.
-/

namespace JsonRs

/-- nom `ErrorKind` values reachable from this source (plus `OutOfFuel`,
the marker of recursion-depth exhaustion of the embedding; the public
entry points supply more fuel than any input can consume, so it is
unreachable from them). -/
inductive ErrKind where
  | Tag
  | Char
  | OneOf
  | NoneOf
  | TakeWhileMN
  | Digit
  | Float
  | Many0
  | SeparatedList
  | OutOfFuel
  deriving DecidableEq

/-- Outcome of a nom parser over the default error type `(&str, ErrorKind)`:
`Ok((rest, a))`, `Err(Err::Error((at, kind)))`, or a Rust panic. -/
inductive Res (α : Type) where
  | ok (rest : List Char) (a : α)
  | err (e : List Char × ErrKind)
  | panic

/-- A nom parser `Fn(&str) -> IResult<&str, α>`. -/
def Parser (α : Type) : Type := List Char → Res α

/-- nom `map`. -/
def pmap (f : α → β) (p : Parser α) : Parser β := fun i =>
  match p i with
  | .ok rest a => .ok rest (f a)
  | .err e => .err e
  | .panic => .panic

/-- Sequencing used to build nom's `preceded`/`terminated`/`delimited`/
`separated_pair`/`tuple`: run `p`, then run `f` on `p`'s result and the
remaining input. -/
def pbind (p : Parser α) (f : α → Parser β) : Parser β := fun i =>
  match p i with
  | .ok rest a => f a rest
  | .err e => .err e
  | .panic => .panic

/-- nom `alt` of two parsers.  On `Err::Error` of the first the second is
tried on the same input; when both fail, the error of the later
alternative is kept, which is what nom's `or`/`append` do on the default
tuple error type `(&str, ErrorKind)`. -/
def alt2 (p q : Parser α) : Parser α := fun i =>
  match p i with
  | .err _ => q i
  | r => r

/-- nom `opt`: turn `Err::Error` into `Ok(none)` without consuming. -/
def opt (p : Parser α) : Parser (Option α) := fun i =>
  match p i with
  | .ok rest a => .ok rest (some a)
  | .err _ => .ok i none
  | .panic => .panic

/-- nom `preceded`. -/
def preceded (p : Parser α) (q : Parser β) : Parser β :=
  pbind p fun _ => q

/-- nom `terminated`. -/
def terminated (p : Parser α) (q : Parser β) : Parser α :=
  pbind p fun a => pmap (fun _ => a) q

/-- nom `delimited`. -/
def delimited (p : Parser α) (q : Parser β) (r : Parser γ) : Parser β :=
  preceded p (terminated q r)

/-- nom `separated_pair`. -/
def separated_pair (p : Parser α) (sep : Parser γ) (q : Parser β) : Parser (α × β) :=
  pbind p fun a => preceded sep (pmap (fun b => (a, b)) q)

/-- nom `pair` / two-element `tuple`. -/
def ppair (p : Parser α) (q : Parser β) : Parser (α × β) :=
  pbind p fun a => pmap (fun b => (a, b)) q

/-- nom `character::complete::char`. -/
def charP (c : Char) : Parser Char := fun i =>
  match i with
  | c' :: rest => if c' = c then .ok rest c else .err (i, .Char)
  | [] => .err (i, .Char)

/-- nom `bytes::complete::tag`. -/
def tagP (t : List Char) : Parser (List Char) := fun i =>
  if t.isPrefixOf i then .ok (i.drop t.length) t else .err (i, .Tag)

/-- nom `character::complete::one_of`. -/
def one_of (s : List Char) : Parser Char := fun i =>
  match i with
  | c :: rest => if c ∈ s then .ok rest c else .err (i, .OneOf)
  | [] => .err (i, .OneOf)

/-- nom `character::complete::none_of`. -/
def none_of (s : List Char) : Parser Char := fun i =>
  match i with
  | c :: rest => if c ∈ s then .err (i, .NoneOf) else .ok rest c
  | [] => .err (i, .NoneOf)

/-- nom `bytes::complete::take_while`: the maximal satisfying prefix;
never fails. -/
def take_while (f : Char → Bool) : Parser (List Char) := fun i =>
  .ok (i.dropWhile f) (i.takeWhile f)

/-- nom `bytes::complete::take_while_m_n`: with `k` leading satisfying
characters, fail if `k < m`, otherwise take `min k n` characters. -/
def take_while_m_n (m n : Nat) (f : Char → Bool) : Parser (List Char) := fun i =>
  let k := (i.takeWhile f).length
  if k < m then .err (i, .TakeWhileMN)
  else .ok (i.drop (min k n)) (i.take (min k n))

/-- nom `AsChar::is_dec_digit` for `char`: ASCII `0-9`
(code points `0x30`–`0x39`). -/
def isDigitC (c : Char) : Bool :=
  0x30 ≤ c.toNat && c.toNat ≤ 0x39

/-- nom `character::complete::digit1` (ASCII digits, at least one). -/
def digit1 : Parser (List Char) := fun i =>
  let ds := i.takeWhile isDigitC
  if ds.isEmpty then .err (i, .Digit) else .ok (i.drop ds.length) ds

/-- nom `combinator::recognize`: return the consumed prefix.  Every parser
of this source returns a suffix of its input, for which the consumed
prefix is the first `|i| - |rest|` characters. -/
def recognize (p : Parser α) : Parser (List Char) := fun i =>
  match p i with
  | .ok rest _ => .ok rest (i.take (i.length - rest.length))
  | .err e => .err e
  | .panic => .panic

/-- nom `error::context`: attaches a diagnostic label.  For the default
tuple error type `(&str, ErrorKind)` of this source, `add_context` drops
the label, so `context` is the identity on behaviour. -/
def context (_label : List Char) (p : Parser α) : Parser α := p

/-- nom `multi::many0`, fuelled.  nom's loop errors with `ErrorKind::Many0`
when an iteration consumes nothing (`i1 == i`, which for a suffix of the
input is equivalent to no length decrease); the same guard bounds the fuel
needed by the input length, so the fuel-0 branch is unreachable from
`many0` below. -/
def many0F (p : Parser α) : Nat → Parser (List α)
  | 0 => fun i => .err (i, .Many0)
  | f + 1 => fun i =>
    match p i with
    | .panic => .panic
    | .err _ => .ok i []
    | .ok i1 x =>
      if i1.length < i.length then
        match many0F p f i1 with
        | .ok i2 xs => .ok i2 (x :: xs)
        | .err e => .err e
        | .panic => .panic
      else .err (i, .Many0)

/-- nom `multi::many0`. -/
def many0 (p : Parser α) : Parser (List α) := fun i => many0F p (i.length + 1) i

/-- Loop of nom 5's `multi::separated_list` after the first element,
fuelled: `sep` then element, stopping with the results so far (input
repositioned before the separator) when either fails with `Err::Error`;
the `ErrorKind::SeparatedList` guards mirror nom's `i1 == i` infinite-loop
checks (equivalent, for suffixes, to no length decrease below the loop
entry).  The fuel-0 branch is unreachable from `separated_list` below. -/
def sepListF (sep : Parser β) (p : Parser α) : Nat → Parser (List α)
  | 0 => fun i => .err (i, .SeparatedList)
  | f + 1 => fun i =>
    match sep i with
    | .panic => .panic
    | .err _ => .ok i []
    | .ok i1 _ =>
      if i1.length < i.length then
        match p i1 with
        | .panic => .panic
        | .err _ => .ok i []
        | .ok i2 x =>
          if i2.length < i.length then
            match sepListF sep p f i2 with
            | .ok i3 xs => .ok i3 (x :: xs)
            | .err e => .err e
            | .panic => .panic
          else .err (i2, .SeparatedList)
      else .err (i1, .SeparatedList)

/-- nom 5 `multi::separated_list`: first element (failure yields the empty
list), then the separator/element loop. -/
def separated_list (sep : Parser β) (p : Parser α) : Parser (List α) := fun i =>
  match p i with
  | .panic => .panic
  | .err _ => .ok i []
  | .ok i1 x =>
    if i1.length < i.length then
      match sepListF sep p (i1.length + 1) i1 with
      | .ok i2 xs => .ok i2 (x :: xs)
      | .err e => .err e
      | .panic => .panic
    else .err (i1, .SeparatedList)

/-! ## Character classes and numeric conversions -/

/-- nom `AsChar::is_hex_digit` for `char`: ASCII `0-9 a-f A-F`
(code points `0x30`–`0x39`, `0x61`–`0x66`, `0x41`–`0x46`). -/
def isHexDigitC (c : Char) : Bool :=
  (0x30 ≤ c.toNat && c.toNat ≤ 0x39) ||
  (0x61 ≤ c.toNat && c.toNat ≤ 0x66) ||
  (0x41 ≤ c.toNat && c.toNat ≤ 0x46)

/-- Value of one hex digit, as in `u32::from_str_radix(_, 16)`. -/
def hexDigitVal (c : Char) : Nat :=
  if c.toNat ≤ 0x39 then c.toNat - 48
  else if 0x61 ≤ c.toNat then c.toNat - 87
  else c.toNat - 55

/-- `u32::from_str_radix(s, 16)` on a run of hex digits (the `.unwrap()`
in `hex` cannot fail: four hex digits always fit in `u32`). -/
def hexVal (l : List Char) : Nat :=
  l.foldl (fun a c => a * 16 + hexDigitVal c) 0

/-- `u32::from_str_radix(s, 10)` semantics on a run of decimal digits. -/
def digitsVal (l : List Char) : Nat :=
  l.foldl (fun a c => a * 10 + (c.toNat - 48)) 0

/-- Rust `char::try_from(u32)`: some scalar value exactly when the code
point is not a surrogate and at most `0x10FFFF`. -/
def charTryFrom (n : Nat) : Option Char :=
  if n < 0xD800 || (0xE000 ≤ n && n ≤ 0x10FFFF) then some (Char.ofNat n) else none

/-- Exact rational value of a decimal literal of the shape produced by
`recognize_float` (optional sign, digits, optional `.` and fraction
digits, optional exponent).  This abstracts the source's
`str::parse::<f32>()`: on every literal `recognize_float` can produce,
that Rust conversion succeeds, and no claim in scope depends on `f32`
rounding or overflow. -/
def decimalVal (s : List Char) : ℚ :=
  let (sgn, s1) : Int × List Char :=
    match s with
    | '+' :: t => (1, t)
    | '-' :: t => (-1, t)
    | _ => (1, s)
  let ip := s1.takeWhile isDigitC
  let s2 := s1.dropWhile isDigitC
  let (fp, s3) : List Char × List Char :=
    match s2 with
    | '.' :: t => (t.takeWhile isDigitC, t.dropWhile isDigitC)
    | _ => ([], s2)
  let ex : Int :=
    match s3 with
    | e :: t =>
      if e = 'e' || e = 'E' then
        match t with
        | '+' :: u => (digitsVal (u.takeWhile isDigitC) : Int)
        | '-' :: u => -(digitsVal (u.takeWhile isDigitC) : Int)
        | _ => (digitsVal (t.takeWhile isDigitC) : Int)
      else 0
    | [] => 0
  let mant : Int := sgn * (digitsVal ip * 10 ^ fp.length + digitsVal fp)
  mkRat (mant * 10 ^ ex.toNat) (10 ^ fp.length * 10 ^ (-ex).toNat)

/-! ## The data model: `enum Value` -/

/-- The source's `Value` enum.  `Number` holds the exact rational value of
the matched literal (for `f32`, see `decimalVal`); `Object` holds the
`HashMap` contents as a canonically-ordered association list (see
`collectPairs`). -/
inductive Value where
  | Null
  | Boolean (b : Bool)
  | Number (q : ℚ)
  | String (s : List Char)
  | Object (kvs : List (List Char × Value))
  | Array (vs : List Value)

/-- `HashMap::insert` on the association-list model: overwrite the value
of an existing key in place, otherwise append. -/
def insertKV (m : List (List Char × Value)) (k : List Char) (v : Value) :
    List (List Char × Value) :=
  match m with
  | [] => [(k, v)]
  | (k', v') :: rest => if k' = k then (k', v) :: rest else (k', v') :: insertKV rest k v

/-- `kv.into_iter().collect::<HashMap<_,_>>()`: left-to-right insertion,
so the last occurrence of a duplicate key wins. -/
def collectPairs (kv : List (List Char × Value)) : List (List Char × Value) :=
  kv.foldl (fun m p => insertKV m p.1 p.2) []

/-! ## The source parsers (`src/lib.rs`) -/

/-- `fn null`. -/
def null : Parser Value :=
  pmap (fun _ => Value.Null) (tagP ['n', 'u', 'l', 'l'])

/-- `fn boolean`. -/
def boolean : Parser Value :=
  alt2 (pmap (fun _ => Value.Boolean true) (tagP ['t', 'r', 'u', 'e']))
       (pmap (fun _ => Value.Boolean false) (tagP ['f', 'a', 'l', 's', 'e']))

/-- Mantissa alternative of nom 5's `recognize_float`:
`digit1 ('.' digit1?)?  |  '.' digit1`. -/
def float_mantissa : Parser Unit :=
  alt2 (pmap (fun _ => ()) (ppair digit1 (opt (ppair (charP '.') (opt digit1)))))
       (pmap (fun _ => ()) (ppair (charP '.') digit1))

/-- Exponent part of nom 5's `recognize_float`: `((e|E) (+|-)? digit1)?`. -/
def float_exp : Parser Unit :=
  pmap (fun _ => ())
    (opt (ppair (alt2 (charP 'e') (charP 'E'))
                (ppair (opt (alt2 (charP '+') (charP '-'))) digit1)))

/-- nom 5 `number::complete::recognize_float`:
`(+|-)? (digit1 ('.' digit1?)? | '.' digit1) ((e|E) (+|-)? digit1)?`. -/
def recognize_float : Parser (List Char) :=
  recognize (ppair (opt (alt2 (charP '+') (charP '-'))) (ppair float_mantissa float_exp))

/-- nom 5 `number::complete::float`: recognize the literal, then convert
(see `decimalVal` for the conversion model). -/
def float : Parser ℚ :=
  pmap decimalVal recognize_float

/-- `fn number`. -/
def number : Parser Value :=
  pmap Value.Number float

/-- `fn unescape`. -/
def unescape (c : Char) : Char :=
  if c = 'n' then '\n' else if c = 'r' then '\r' else if c = 't' then '\t' else c

/-- `fn simple_escape_char`: `one_of("\"\\nrt")` mapped through `unescape`. -/
def simple_escape_char : Parser Char :=
  pmap unescape (one_of ['"', '\\', 'n', 'r', 't'])

/-- `fn hex`: exactly four hex digits, radix-16 value. -/
def hex : Parser Nat :=
  pmap hexVal (take_while_m_n 4 4 isHexDigitC)

/-- `fn hex_escape_char`: `'u'` then `hex`, then
`u32 -> char` via `try_into().unwrap()` — a PANIC when the code point is
not a valid scalar value (an unpaired surrogate). -/
def hex_escape_char : Parser Char := fun i =>
  match charP 'u' i with
  | .ok i1 _ =>
    (match hex i1 with
     | .ok i2 n =>
       (match charTryFrom n with
        | some c => .ok i2 c
        | none => .panic)
     | .err e => .err e
     | .panic => .panic)
  | .err e => .err e
  | .panic => .panic

/-- `fn escape_char`. -/
def escape_char : Parser Char :=
  preceded (charP '\\') (alt2 hex_escape_char simple_escape_char)

/-- `fn normal_char`. -/
def normal_char : Parser Char :=
  none_of ['\\', '"']

/-- `fn js_string`: quoted body of escapes and normal characters,
collected into the decoded text. -/
def js_string : Parser (List Char) :=
  delimited (charP '"') (many0 (alt2 escape_char normal_char)) (charP '"')

/-- `fn string`. -/
def string : Parser Value :=
  pmap Value.String js_string

/-- `' ' | '\n' | '\r' | '\u{0009}'`, the whitespace set of `fn js_spaces`. -/
def isWsChar (c : Char) : Bool :=
  c = ' ' || c = '\n' || c = '\r' || c = '\t'

/-- `fn js_spaces`. -/
def js_spaces : Parser (List Char) :=
  take_while isWsChar

/-- `fn ws`: consume trailing whitespace after `f`. -/
def ws (f : Parser α) : Parser α :=
  terminated f js_spaces

/-- `fn array` body, with the element parser passed explicitly (the Rust
source recurses into `fn value`; the embedding closes the recursion with
fuel in `valueF`). -/
def arrayP (v : Parser Value) : Parser Value :=
  pmap Value.Array (delimited (charP '[') (separated_list (charP ',') v) (charP ']'))

/-- The "object item" sub-parser of `fn object`: a whitespace-trailed key,
a whitespace-trailed `:`, and a value. -/
def objItemP (v : Parser Value) : Parser (List Char × Value) :=
  context ("object item".data) (separated_pair (ws js_string) (ws (charP ':')) v)

/-- `fn object` body, element parser passed explicitly. -/
def objectP (v : Parser Value) : Parser Value :=
  context ("object".data)
    (pmap (fun kv => Value.Object (collectPairs kv))
      (delimited (ws (charP '{'))
        (separated_list (ws (charP ',')) (objItemP v))
        (charP '}')))

/-- `fn value_inner` body, element parser passed explicitly. -/
def value_innerP (v : Parser Value) : Parser Value :=
  alt2 null (alt2 boolean (alt2 number (alt2 string (alt2 (arrayP v) (objectP v)))))

/-- `fn value`, fuelled: each recursive entry into `value` spends one unit
of fuel.  Every recursive entry in the source consumes at least one
character (the `[`/`{` of the enclosing container and the
`separated_list` consumption guards), so fuel exceeding the input length,
as supplied by `value` below, can never run out and the `OutOfFuel`
branch is unreachable from the public entry points. -/
def valueF : Nat → Parser Value
  | 0 => fun i => .err (i, .OutOfFuel)
  | f + 1 => delimited js_spaces (value_innerP (valueF f)) js_spaces

/-- `pub fn value`, the top-level entry point. -/
def value : Parser Value := fun i => valueF (i.length + 1) i

/-- `fn array` (elements parsed by the top-level `value`). -/
def array : Parser Value := arrayP value

/-- `fn object` (elements parsed by the top-level `value`). -/
def object : Parser Value := objectP value

/-- `fn value_inner` (recursion through the top-level `value`). -/
def value_inner : Parser Value := value_innerP value

/-!
## Documents of the parser's grammar

`Doc` describes exactly the texts the parser accepts, together with every
formatting choice the grammar leaves open: the whitespace the grammar
permits (after `{`, after an object `,`, after a key, after `:`, around
every array/object element value) is carried as explicit fields, string
bodies are sequences of normal characters / recognized simple escapes /
4-hex-digit scalar escapes, and numbers carry the exact literal shape
`recognize_float` matches.  `renderDoc` prints such a document,
`evalDoc` gives the `Value` the parser is expected to produce (whitespace
fields are ignored), and `wfDoc` states the side conditions (whitespace
fields hold only whitespace, escapes are from the recognized set, hex
escapes decode to scalar values, digit runs are nonempty digit runs).
-/

/-- One item of a string body: a normal character, a recognized simple
escape `\c`, or a hex escape `\uXXXX` (digits stored as written). -/
inductive SChar where
  | norm (c : Char)
  | esc (c : Char)
  | hexc (h1 h2 h3 h4 : Char)

/-- Mantissa shapes matched by `recognize_float`: digits with an optional
`.`-and-optional-fraction, or `.` with digits. -/
inductive Mant where
  | intFrac (ip : List Char) (frac : Option (Option (List Char)))
  | dotFrac (fp : List Char)

/-- Exponent part of a `recognize_float` literal. -/
structure ExpPart where
  ec : Char
  esign : Option Char
  edigits : List Char

/-- A `recognize_float` literal. -/
structure NumLit where
  msign : Option Char
  mant : Mant
  nexp : Option ExpPart

mutual
/-- A document of the parser's grammar, with explicit whitespace fields. -/
inductive Doc where
  | nullD
  | boolD (b : Bool)
  | numD (nl : NumLit)
  | strD (items : List SChar)
  | arrD (es : Elems)
  | objD (w0 : List Char) (ps : Pairs)

/-- Array elements: each with the whitespace around its value. -/
inductive Elems where
  | nil
  | cons (w1 : List Char) (d : Doc) (w2 : List Char) (tl : Elems)

/-- Object pairs: `wp` is whitespace after the preceding `{`/`,`, `wk`
after the key, `wc` after the `:`, `wv` after the value. -/
inductive Pairs where
  | nil
  | cons (wp : List Char) (key : List SChar) (wk : List Char) (wc : List Char)
         (d : Doc) (wv : List Char) (tl : Pairs)
end

/-- Printed form of one string-body item. -/
def renderSChar : SChar → List Char
  | .norm c => [c]
  | .esc c => ['\\', c]
  | .hexc h1 h2 h3 h4 => ['\\', 'u', h1, h2, h3, h4]

/-- Printed form of a string body. -/
def renderItems (items : List SChar) : List Char :=
  items.flatMap renderSChar

/-- Printed form of an optional sign. -/
def renderSign : Option Char → List Char
  | none => []
  | some c => [c]

/-- Printed form of a mantissa. -/
def renderMant : Mant → List Char
  | .intFrac ip frac =>
    ip ++ (match frac with | none => [] | some none => ['.'] | some (some fp) => '.' :: fp)
  | .dotFrac fp => '.' :: fp

/-- Printed form of an optional exponent part. -/
def renderExp : Option ExpPart → List Char
  | none => []
  | some e => e.ec :: (renderSign e.esign ++ e.edigits)

/-- Printed form of a number literal. -/
def renderNum (nl : NumLit) : List Char :=
  renderSign nl.msign ++ renderMant nl.mant ++ renderExp nl.nexp

/-- Whitespace after `{` belonging to the head pair (folded into the run
the `ws`-wrapped `{` consumes). -/
def headWp : Pairs → List Char
  | .nil => []
  | .cons wp _ _ _ _ _ _ => wp

mutual
/-- Printed form of a document. -/
def renderDoc : Doc → List Char
  | .nullD => ['n', 'u', 'l', 'l']
  | .boolD true => ['t', 'r', 'u', 'e']
  | .boolD false => ['f', 'a', 'l', 's', 'e']
  | .numD nl => renderNum nl
  | .strD items => '"' :: renderItems items ++ ['"']
  | .arrD es => '[' :: renderElems es ++ [']']
  | .objD w0 ps => '{' :: (w0 ++ headWp ps) ++ renderPairs ps ++ ['}']

/-- Printed array elements (no leading separator on the head). -/
def renderElems : Elems → List Char
  | .nil => []
  | .cons w1 d w2 tl => w1 ++ renderDoc d ++ w2 ++ renderElemsTail tl

/-- Printed array elements, each preceded by its `,` separator. -/
def renderElemsTail : Elems → List Char
  | .nil => []
  | .cons w1 d w2 tl => ',' :: (w1 ++ renderDoc d ++ w2) ++ renderElemsTail tl

/-- Printed object pairs, the head pair's leading whitespace omitted (it
is already part of `renderDoc`'s `objD` case, where the `ws`-wrapped `{`
consumes it). -/
def renderPairs : Pairs → List Char
  | .nil => []
  | .cons _ key wk wc d wv tl =>
    '"' :: renderItems key ++ '"' :: (wk ++ ':' :: (wc ++ renderDoc d ++ wv)) ++
      renderPairsTail tl

/-- Printed object pairs, each preceded by its `,` separator and its
leading whitespace. -/
def renderPairsTail : Pairs → List Char
  | .nil => []
  | .cons wp key wk wc d wv tl =>
    ',' :: (wp ++ '"' :: renderItems key ++ '"' :: (wk ++ ':' :: (wc ++ renderDoc d ++ wv))) ++
      renderPairsTail tl
end

/-- Decoded value of a string-body item, as the parser produces it. -/
def evalSChar : SChar → Char
  | .norm c => c
  | .esc c => unescape c
  | .hexc h1 h2 h3 h4 => Char.ofNat (hexVal [h1, h2, h3, h4])

mutual
/-- The `Value` the parser produces for a document (whitespace fields are
irrelevant). -/
def evalDoc : Doc → Value
  | .nullD => .Null
  | .boolD b => .Boolean b
  | .numD nl => .Number (decimalVal (renderNum nl))
  | .strD items => .String (items.map evalSChar)
  | .arrD es => .Array (evalElems es)
  | .objD _ ps => .Object (collectPairs (evalPairs ps))

/-- Values of array elements. -/
def evalElems : Elems → List Value
  | .nil => []
  | .cons _ d _ tl => evalDoc d :: evalElems tl

/-- Key/value pairs of an object, in source order (before `HashMap`
collection). -/
def evalPairs : Pairs → List (List Char × Value)
  | .nil => []
  | .cons _ key _ _ d _ tl => (key.map evalSChar, evalDoc d) :: evalPairs tl
end

/-- `w` consists of whitespace characters only. -/
def wsOnly (w : List Char) : Bool := w.all isWsChar

/-- Well-formedness of a string-body item: normal characters are neither
`\` nor `"`; simple escapes are from the recognized set; hex escapes have
four hex digits decoding to a valid scalar value (not a surrogate —
unpaired surrogates make the source panic, see `hex_escape_char`). -/
def wfSChar : SChar → Bool
  | .norm c => !(c = '\\' || c = '"')
  | .esc c => c = '"' || c = '\\' || c = 'n' || c = 'r' || c = 't'
  | .hexc h1 h2 h3 h4 =>
    isHexDigitC h1 && isHexDigitC h2 && isHexDigitC h3 && isHexDigitC h4 &&
      !(0xD800 ≤ hexVal [h1, h2, h3, h4] && hexVal [h1, h2, h3, h4] < 0xE000)

/-- Well-formedness of an optional sign: `+` or `-`. -/
def wfSign : Option Char → Bool
  | none => true
  | some c => c = '+' || c = '-'

/-- Well-formedness of a mantissa: every digit run is a nonempty run of
decimal digits. -/
def wfMant : Mant → Bool
  | .intFrac ip frac =>
    !ip.isEmpty && ip.all isDigitC &&
      (match frac with
       | none => true
       | some none => true
       | some (some fp) => !fp.isEmpty && fp.all isDigitC)
  | .dotFrac fp => !fp.isEmpty && fp.all isDigitC

/-- Well-formedness of an optional exponent part: marker `e` or `E`, a
sign character or nothing, then a nonempty digit run. -/
def wfExp : Option ExpPart → Bool
  | none => true
  | some e =>
    (e.ec = 'e' || e.ec = 'E') && wfSign e.esign &&
      !e.edigits.isEmpty && e.edigits.all isDigitC

/-- Well-formedness of a number literal. -/
def wfNum (nl : NumLit) : Bool :=
  wfSign nl.msign && wfMant nl.mant && wfExp nl.nexp

mutual
/-- Well-formedness of a document (see `wfSChar`, `wfNum`, `wsOnly`). -/
def wfDoc : Doc → Bool
  | .nullD => true
  | .boolD _ => true
  | .numD nl => wfNum nl
  | .strD items => items.all wfSChar
  | .arrD es => wfElems es
  | .objD w0 ps => wsOnly w0 && wfPairs ps

/-- Well-formedness of array elements. -/
def wfElems : Elems → Bool
  | .nil => true
  | .cons w1 d w2 tl => wsOnly w1 && wfDoc d && wsOnly w2 && wfElems tl

/-- Well-formedness of object pairs. -/
def wfPairs : Pairs → Bool
  | .nil => true
  | .cons wp key wk wc d wv tl =>
    wsOnly wp && key.all wfSChar && wsOnly wk && wsOnly wc && wfDoc d &&
      wsOnly wv && wfPairs tl
end

mutual
/-- Recursion depth a document demands of `valueF`: one unit per nesting
level. -/
def needDoc : Doc → Nat
  | .nullD => 0
  | .boolD _ => 0
  | .numD _ => 0
  | .strD _ => 0
  | .arrD es => needElems es + 1
  | .objD _ ps => needPairs ps + 1

/-- Depth demanded by array elements. -/
def needElems : Elems → Nat
  | .nil => 0
  | .cons _ d _ tl => max (needDoc d) (needElems tl)

/-- Depth demanded by object pair values. -/
def needPairs : Pairs → Nat
  | .nil => 0
  | .cons _ _ _ _ d _ tl => max (needDoc d) (needPairs tl)
end

mutual
/-- Erase every whitespace annotation of a document. -/
def stripDoc : Doc → Doc
  | .nullD => .nullD
  | .boolD b => .boolD b
  | .numD nl => .numD nl
  | .strD items => .strD items
  | .arrD es => .arrD (stripElems es)
  | .objD _ ps => .objD [] (stripPairs ps)

/-- Erase whitespace annotations of array elements. -/
def stripElems : Elems → Elems
  | .nil => .nil
  | .cons _ d _ tl => .cons [] (stripDoc d) [] (stripElems tl)

/-- Erase whitespace annotations of object pairs. -/
def stripPairs : Pairs → Pairs
  | .nil => .nil
  | .cons _ key _ _ d _ tl => .cons [] key [] [] (stripDoc d) [] (stripPairs tl)
end

/-- What may follow a rendered value for the grammar to stop exactly
there: end of input or a separator/closing character (the positions the
round-trip statements use). -/
def followsOk : List Char → Bool
  | [] => true
  | c :: _ => c = ',' || c = ']' || c = '}'

/-- The first character of `r` (if any) fails `f`. -/
def headNot (f : Char → Bool) : List Char → Bool
  | [] => true
  | c :: _ => !f c

/-- What may follow a rendered number literal without extending the
`recognize_float` match: nothing, or a character that is none of a digit,
`.`, `e`, `E`. -/
def numBoundary : List Char → Bool
  | [] => true
  | c :: _ => !(isDigitC c || c = '.' || c = 'e' || c = 'E')

/-- The number literal `1`. -/
def numOne : NumLit := ⟨none, .intFrac ['1'] none, none⟩

/-- Example document rendering to `{ \"a\" : [ 1 ]}`. -/
def dWitness : Doc :=
  .objD [' ']
    (.cons [] [.norm 'a'] [' '] [' ']
      (.arrD (.cons [' '] (.numD numOne) [' '] .nil)) [] .nil)

/-- Example document rendering to `{\"a\":1}`. -/
def dCompact : Doc :=
  .objD [] (.cons [] [.norm 'a'] [] [] (.numD numOne) [] .nil)

/-- The same document as `dCompact` with extra whitespace after `{`, the
key, the `:` and the value, rendering to `{ \"a\" : 1 }`. -/
def dSpaced : Doc :=
  .objD [' '] (.cons [] [.norm 'a'] [' '] [' '] (.numD numOne) [' '] .nil)

/-!
## Lemmas: list and primitive-parser facts
-/

theorem takeWhile_append_all {f : Char → Bool} {w : List Char} (r : List Char)
    (hw : w.all f = true) : (w ++ r).takeWhile f = w ++ r.takeWhile f := by
  induction w with
  | nil => simp
  | cons c t ih =>
    simp only [List.all_cons, Bool.and_eq_true] at hw
    simp [List.takeWhile_cons, hw.1, ih hw.2]

theorem dropWhile_append_all {f : Char → Bool} {w : List Char} (r : List Char)
    (hw : w.all f = true) : (w ++ r).dropWhile f = r.dropWhile f := by
  induction w with
  | nil => simp
  | cons c t ih =>
    simp only [List.all_cons, Bool.and_eq_true] at hw
    simp [List.dropWhile_cons, hw.1, ih hw.2]

theorem takeWhile_headNot {f : Char → Bool} {r : List Char}
    (h : headNot f r = true) : r.takeWhile f = [] := by
  cases r with
  | nil => simp
  | cons c t =>
    simp only [headNot, Bool.not_eq_true'] at h
    simp [List.takeWhile_cons, h]

theorem dropWhile_headNot {f : Char → Bool} {r : List Char}
    (h : headNot f r = true) : r.dropWhile f = r := by
  cases r with
  | nil => simp
  | cons c t =>
    simp only [headNot, Bool.not_eq_true'] at h
    simp [List.dropWhile_cons, h]

theorem take_len_append (a r : List Char) : (a ++ r).take a.length = a := by
  induction a with
  | nil => simp
  | cons c t ih => simp [ih]

theorem drop_len_append (a r : List Char) : (a ++ r).drop a.length = r := by
  induction a with
  | nil => simp
  | cons c t ih => simp [ih]

theorem js_spaces_eq {w r : List Char} (hw : wsOnly w = true)
    (hr : headNot isWsChar r = true) : js_spaces (w ++ r) = .ok r w := by
  simp [js_spaces, take_while, takeWhile_append_all r hw, dropWhile_append_all r hw,
        takeWhile_headNot hr, dropWhile_headNot hr]

theorem js_spaces_none {r : List Char} (hr : headNot isWsChar r = true) :
    js_spaces r = .ok r [] := by
  simpa using js_spaces_eq (w := []) (r := r) rfl hr

theorem charP_ok (c : Char) (r : List Char) : charP c (c :: r) = .ok r c := by
  simp [charP]

theorem charP_ne {c c' : Char} (r : List Char) (h : c' ≠ c) :
    charP c (c' :: r) = .err (c' :: r, .Char) := by
  simp [charP, h]

theorem charP_nil (c : Char) : charP c [] = .err ([], .Char) := rfl

theorem isPrefixOf_append (t r : List Char) : t.isPrefixOf (t ++ r) = true := by
  induction t with
  | nil => simp [List.isPrefixOf]
  | cons c tt ih => simp [List.isPrefixOf, ih]

theorem tagP_ok (t r : List Char) : tagP t (t ++ r) = .ok r t := by
  simp [tagP, isPrefixOf_append, drop_len_append]

theorem tagP_cons_ne {th c : Char} (tt r : List Char) (h : c ≠ th) :
    tagP (th :: tt) (c :: r) = .err (c :: r, .Tag) := by
  simp [tagP, List.isPrefixOf, Ne.symm h]

theorem digit1_ok {ds : List Char} (r : List Char) (h1 : ds ≠ [])
    (h2 : ds.all isDigitC = true) (hr : headNot isDigitC r = true) :
    digit1 (ds ++ r) = .ok r ds := by
  simp [digit1, takeWhile_append_all r h2, takeWhile_headNot hr, h1,
        drop_len_append]

theorem digit1_fail {r : List Char} (hr : headNot isDigitC r = true) :
    digit1 r = .err (r, .Digit) := by
  simp [digit1, takeWhile_headNot hr]

theorem one_of_mem {s : List Char} {c : Char} (r : List Char) (h : c ∈ s) :
    one_of s (c :: r) = .ok r c := by
  simp [one_of, h]

theorem one_of_not_mem {s : List Char} {c : Char} (r : List Char) (h : c ∉ s) :
    one_of s (c :: r) = .err (c :: r, .OneOf) := by
  simp [one_of, h]

theorem none_of_mem {s : List Char} {c : Char} (r : List Char) (h : c ∈ s) :
    none_of s (c :: r) = .err (c :: r, .NoneOf) := by
  simp [none_of, h]

theorem none_of_not_mem {s : List Char} {c : Char} (r : List Char) (h : c ∉ s) :
    none_of s (c :: r) = .ok r c := by
  simp [none_of, h]

/-!
## Lemmas: combinator computation rules
-/

theorem pmap_ok {p : Parser α} {i j : List Char} {a : α} (f : α → β)
    (h : p i = .ok j a) : pmap f p i = .ok j (f a) := by
  simp [pmap, h]

theorem pmap_err {p : Parser α} {i : List Char} {e} (f : α → β)
    (h : p i = .err e) : pmap f p i = .err e := by
  simp [pmap, h]

theorem ppair_ok {p : Parser α} {q : Parser β} {i j k : List Char} {a b}
    (hp : p i = .ok j a) (hq : q j = .ok k b) : ppair p q i = .ok k (a, b) := by
  simp [ppair, pbind, pmap, hp, hq]

theorem ppair_err1 {p : Parser α} {q : Parser β} {i : List Char} {e}
    (hp : p i = .err e) : ppair p q i = .err e := by
  simp [ppair, pbind, hp]

theorem ppair_err2 {p : Parser α} {q : Parser β} {i j : List Char} {a} {e}
    (hp : p i = .ok j a) (hq : q j = .err e) : ppair p q i = .err e := by
  simp [ppair, pbind, pmap, hp, hq]

theorem preceded_ok {p : Parser α} {q : Parser β} {i j : List Char} {a}
    (hp : p i = .ok j a) : preceded p q i = q j := by
  simp [preceded, pbind, hp]

theorem preceded_err {p : Parser α} {q : Parser β} {i : List Char} {e}
    (hp : p i = .err e) : preceded p q i = .err e := by
  simp [preceded, pbind, hp]

theorem terminated_ok {p : Parser α} {q : Parser β} {i j k : List Char} {a b}
    (hp : p i = .ok j a) (hq : q j = .ok k b) : terminated p q i = .ok k a := by
  simp [terminated, pbind, pmap, hp, hq]

theorem terminated_err2 {p : Parser α} {q : Parser β} {i j : List Char} {a} {e}
    (hp : p i = .ok j a) (hq : q j = .err e) : terminated p q i = .err e := by
  simp [terminated, pbind, pmap, hp, hq]

theorem delimited_ok {p : Parser α} {q : Parser β} {r : Parser γ}
    {i j k l : List Char} {a b c}
    (hp : p i = .ok j a) (hq : q j = .ok k b) (hr : r k = .ok l c) :
    delimited p q r i = .ok l b := by
  simp [delimited, preceded, terminated, pbind, pmap, hp, hq, hr]

theorem delimited_err2 {p : Parser α} {q : Parser β} {r : Parser γ}
    {i j : List Char} {a} {e} (hp : p i = .ok j a) (hq : q j = .err e) :
    delimited p q r i = .err e := by
  simp [delimited, preceded, terminated, pbind, pmap, hp, hq]

theorem delimited_err3 {p : Parser α} {q : Parser β} {r : Parser γ}
    {i j k : List Char} {a b} {e}
    (hp : p i = .ok j a) (hq : q j = .ok k b) (hr : r k = .err e) :
    delimited p q r i = .err e := by
  simp [delimited, preceded, terminated, pbind, pmap, hp, hq, hr]

theorem separated_pair_ok {p : Parser α} {sep : Parser γ} {q : Parser β}
    {i j k l : List Char} {a c b}
    (hp : p i = .ok j a) (hsep : sep j = .ok k c) (hq : q k = .ok l b) :
    separated_pair p sep q i = .ok l (a, b) := by
  simp [separated_pair, preceded, pbind, pmap, hp, hsep, hq]

theorem alt2_ok1 {p q : Parser α} {i j : List Char} {a}
    (h : p i = .ok j a) : alt2 p q i = .ok j a := by
  simp [alt2, h]

theorem alt2_err1 {p q : Parser α} {i : List Char} {e}
    (h : p i = .err e) : alt2 p q i = q i := by
  simp [alt2, h]

theorem alt2_panic1 {p q : Parser α} {i : List Char}
    (h : p i = .panic) : alt2 p q i = .panic := by
  simp [alt2, h]

theorem opt_ok {p : Parser α} {i j : List Char} {a}
    (h : p i = .ok j a) : opt p i = .ok j (some a) := by
  simp [opt, h]

theorem opt_err {p : Parser α} {i : List Char} {e}
    (h : p i = .err e) : opt p i = .ok i none := by
  simp [opt, h]

theorem context_eq (lbl : List Char) (p : Parser α) (i : List Char) :
    context lbl p i = p i := rfl

theorem many0F_irrel (p : Parser α) : ∀ (f g : Nat) (i : List Char),
    i.length < f → i.length < g → many0F p f i = many0F p g i := by
  intro f
  induction f with
  | zero => intro g i hf _; exact absurd hf (by omega)
  | succ f ih =>
    intro g i hf hg
    cases g with
    | zero => exact absurd hg (by omega)
    | succ g =>
      simp only [many0F]
      cases hp : p i with
      | panic => rfl
      | err e => rfl
      | ok i1 x =>
        by_cases hlen : i1.length < i.length
        · simp only [hlen, if_true]
          rw [ih g i1 (by omega) (by omega)]
        · simp [hlen]

/-- One unfolding of nom's `many0` loop, fuel hidden. -/
theorem many0_step (p : Parser α) (i : List Char) :
    many0 p i = (match p i with
      | .panic => .panic
      | .err _ => .ok i []
      | .ok i1 x =>
        if i1.length < i.length then
          match many0 p i1 with
          | .ok i2 xs => .ok i2 (x :: xs)
          | .err e => .err e
          | .panic => .panic
        else .err (i, .Many0)) := by
  show many0F p (i.length + 1) i = _
  simp only [many0F]
  cases hp : p i with
  | panic => rfl
  | err e => rfl
  | ok i1 x =>
    by_cases hlen : i1.length < i.length
    · simp only [hlen, if_true]
      rw [many0F_irrel p i.length (i1.length + 1) i1 (by omega) (by omega)]
      rfl
    · simp [hlen]

/-!
## Lemmas: character classes
-/

theorem ws_char_cases {c : Char} (h : isWsChar c = true) :
    c = ' ' ∨ c = '\n' ∨ c = '\r' ∨ c = '\t' := by
  simp only [isWsChar, Bool.or_eq_true, decide_eq_true_eq] at h
  tauto

theorem digit_ne {c c' : Char} (h : isDigitC c = true) (h' : isDigitC c' = false) :
    c ≠ c' := by
  intro e
  rw [e, h'] at h
  exact Bool.false_ne_true h

theorem hex_ne {c c' : Char} (h : isHexDigitC c = true) (h' : isHexDigitC c' = false) :
    c ≠ c' := by
  intro e
  rw [e, h'] at h
  exact Bool.false_ne_true h

theorem digit_not_ws {c : Char} (h : isDigitC c = true) : isWsChar c = false := by
  by_cases hw : isWsChar c = true
  · rcases ws_char_cases hw with h' | h' | h' | h' <;> subst h' <;>
      exact absurd h (by decide)
  · simpa using hw

theorem ws_not_digit {c : Char} (h : isWsChar c = true) : isDigitC c = false := by
  rcases ws_char_cases h with h' | h' | h' | h' <;> subst h' <;> decide

theorem hexDigitVal_lt {c : Char} (h : isHexDigitC c = true) : hexDigitVal c < 16 := by
  simp only [isHexDigitC, Bool.or_eq_true, Bool.and_eq_true, decide_eq_true_eq] at h
  unfold hexDigitVal
  rcases h with (⟨h1, h2⟩ | ⟨h1, h2⟩) | ⟨h1, h2⟩ <;> split_ifs <;> omega

theorem hexVal4_lt {a b c d : Char} (ha : isHexDigitC a = true)
    (hb : isHexDigitC b = true) (hc : isHexDigitC c = true)
    (hd : isHexDigitC d = true) : hexVal [a, b, c, d] < 65536 := by
  have la := hexDigitVal_lt ha
  have lb := hexDigitVal_lt hb
  have lc := hexDigitVal_lt hc
  have ld := hexDigitVal_lt hd
  simp only [hexVal, List.foldl]
  omega

/-!
## Lemmas: the string parser on rendered string bodies
-/

theorem hex_ok {h1 h2 h3 h4 : Char} (r : List Char)
    (e1 : isHexDigitC h1 = true) (e2 : isHexDigitC h2 = true)
    (e3 : isHexDigitC h3 = true) (e4 : isHexDigitC h4 = true) :
    hex (h1 :: h2 :: h3 :: h4 :: r) = .ok r (hexVal [h1, h2, h3, h4]) := by
  have ht : (h1 :: h2 :: h3 :: h4 :: r).takeWhile isHexDigitC
      = h1 :: h2 :: h3 :: h4 :: r.takeWhile isHexDigitC := by
    simp [List.takeWhile_cons, e1, e2, e3, e4]
  have hk : ¬ (h1 :: h2 :: h3 :: h4 :: r.takeWhile isHexDigitC).length < 4 := by
    simp
  have hmin : min (h1 :: h2 :: h3 :: h4 :: r.takeWhile isHexDigitC).length 4 = 4 := by
    simp
  simp only [hex, pmap, take_while_m_n, ht, hk, if_false, hmin]
  rfl

/-- One rendered string-body item parses to its decoded character. -/
theorem schar_parse {it : SChar} (h : wfSChar it = true) (s : List Char) :
    alt2 escape_char normal_char (renderSChar it ++ s) = .ok s (evalSChar it) := by
  cases it with
  | norm c =>
    simp only [wfSChar, Bool.not_eq_true', Bool.or_eq_false_iff,
      decide_eq_false_iff_not] at h
    simp only [renderSChar, evalSChar, List.singleton_append, alt2, escape_char,
      preceded, pbind, charP_ne s h.1, normal_char]
    exact none_of_not_mem s (by
      simp only [List.mem_cons, List.not_mem_nil, or_false]
      push_neg
      exact ⟨h.1, h.2⟩)
  | esc c =>
    simp only [wfSChar, Bool.or_eq_true, decide_eq_true_eq] at h
    rcases h with (((h | h) | h) | h) | h <;> subst h <;> rfl
  | hexc h1 h2 h3 h4 =>
    simp only [wfSChar, Bool.and_eq_true, Bool.not_eq_true',
      Bool.and_eq_false_iff, decide_eq_false_iff_not] at h
    obtain ⟨⟨⟨⟨e1, e2⟩, e3⟩, e4⟩, hval⟩ := h
    have hcf : charTryFrom (hexVal [h1, h2, h3, h4])
        = some (Char.ofNat (hexVal [h1, h2, h3, h4])) := by
      have hlt : hexVal [h1, h2, h3, h4] < 65536 := hexVal4_lt e1 e2 e3 e4
      have hv : ¬ (55296 ≤ hexVal [h1, h2, h3, h4] ∧ hexVal [h1, h2, h3, h4] < 57344) := by
        intro hc
        rcases hval with hval | hval
        · exact absurd (by exact_mod_cast hc.1) (by simpa using hval)
        · exact absurd (by exact_mod_cast hc.2) (by simpa using hval)
      unfold charTryFrom
      rw [if_pos]
      simp only [Bool.or_eq_true, decide_eq_true_eq, Bool.and_eq_true]
      omega
    simp only [renderSChar, evalSChar, List.cons_append, List.nil_append, alt2,
      escape_char, preceded, pbind, charP_ok, hex_escape_char,
      hex_ok s e1 e2 e3 e4, hcf]

/-- The string body loop stops at the closing quote. -/
theorem body_end (r : List Char) :
    alt2 escape_char normal_char ('"' :: r) = .err ('"' :: r, .NoneOf) := by
  rw [alt2, escape_char, preceded, pbind, charP_ne r (by decide)]
  rw [normal_char, none_of_mem r (by decide)]

theorem renderSChar_ne_nil (it : SChar) : renderSChar it ≠ [] := by
  cases it <;> simp [renderSChar]

/-- The rendered string body parses to the decoded characters, stopping at
the closing quote. -/
theorem many0_body (items : List SChar) (h : items.all wfSChar = true) (r : List Char) :
    many0 (alt2 escape_char normal_char) (renderItems items ++ '"' :: r)
      = .ok ('"' :: r) (items.map evalSChar) := by
  induction items with
  | nil =>
    rw [many0_step]
    simp [renderItems, body_end r]
  | cons it tl ih =>
    simp only [List.all_cons, Bool.and_eq_true] at h
    have hr : renderItems (it :: tl) ++ '"' :: r
        = renderSChar it ++ (renderItems tl ++ '"' :: r) := by
      simp [renderItems]
    have hlen : (renderItems tl ++ '"' :: r).length
        < (renderSChar it ++ (renderItems tl ++ '"' :: r)).length := by
      rcases hs : renderSChar it with _ | ⟨a, b⟩
      · exact absurd hs (renderSChar_ne_nil it)
      · simp only [List.length_append, List.length_cons]
        omega
    rw [hr, many0_step]
    simp only [schar_parse h.1, hlen, if_true, ih h.2, List.map_cons]

/-- `js_string` round-trip: a rendered string literal parses to its decoded
text, the rest of the input untouched. -/
theorem js_string_rt (items : List SChar) (h : items.all wfSChar = true) (r : List Char) :
    js_string ('"' :: renderItems items ++ '"' :: r) = .ok r (items.map evalSChar) := by
  simp only [js_string, delimited, preceded, terminated, pbind, pmap,
    List.cons_append, charP_ok, many0_body items h r]

/-!
## Lemmas: the number parser on rendered literals
-/

theorem numBoundary_spec {rest : List Char} (h : numBoundary rest = true) :
    headNot isDigitC rest = true ∧ headNot (fun c => c = '.') rest = true ∧
      headNot (fun c => c = 'e' || c = 'E') rest = true := by
  cases rest with
  | nil => exact ⟨rfl, rfl, rfl⟩
  | cons c t =>
    simp only [numBoundary, Bool.not_eq_true', Bool.or_eq_false_iff] at h
    simp only [headNot, Bool.not_eq_true']
    refine ⟨h.1.1.1, ?_, ?_⟩
    · simpa using h.1.1.2
    · simp only [Bool.or_eq_false_iff]
      exact ⟨h.1.2, h.2⟩

/-- `recognize` of a parser that consumes exactly `a`. -/
theorem recognize_of {p : Parser α} {a rest : List Char} {x : α}
    (h : p (a ++ rest) = .ok rest x) : recognize p (a ++ rest) = .ok rest a := by
  simp only [recognize, h]
  rw [show (a ++ rest).length - rest.length = a.length by simp, take_len_append]

/-- The optional-sign parser at a non-sign position. -/
theorem sign_none {r : List Char} (h : headNot (fun c => c = '+' || c = '-') r = true) :
    opt (alt2 (charP '+') (charP '-')) r = .ok r none := by
  cases r with
  | nil => rfl
  | cons c t =>
    simp only [headNot, Bool.not_eq_true', Bool.or_eq_false_iff,
      decide_eq_false_iff_not] at h
    simp [opt, alt2, charP_ne t h.1, charP_ne t h.2]

/-- The optional-sign parser on a rendered sign. -/
theorem sign_rt {sg : Option Char} (h : wfSign sg = true) (r : List Char)
    (hr : headNot (fun c => c = '+' || c = '-') r = true) :
    opt (alt2 (charP '+') (charP '-')) (renderSign sg ++ r) = .ok r sg := by
  cases sg with
  | none => simpa [renderSign] using sign_none hr
  | some c =>
    simp only [wfSign, Bool.or_eq_true, decide_eq_true_eq] at h
    rcases h with h | h <;> subst h <;>
      simp [renderSign, opt, alt2, charP_ok, charP_ne]

/-- Fraction-part head boundary: the optional `. digits?` sub-parser
consumes nothing at a non-dot position. -/
theorem fracopt_none {X : List Char} (h : headNot (fun c => c = '.') X = true) :
    opt (ppair (charP '.') (opt digit1)) X = .ok X none := by
  cases X with
  | nil => rfl
  | cons c t =>
    simp only [headNot, Bool.not_eq_true', decide_eq_false_iff_not] at h
    simp [opt, ppair, pbind, pmap, charP_ne t h]

/-- The mantissa parser consumes exactly a rendered mantissa when the
following character is neither a digit nor a dot. -/
theorem mantissa_rt (m : Mant) (X : List Char) (hwf : wfMant m = true)
    (hd : headNot isDigitC X = true) (hdot : headNot (fun c => c = '.') X = true) :
    float_mantissa (renderMant m ++ X) = .ok X () := by
  cases m with
  | intFrac ip frac =>
    simp only [wfMant, Bool.and_eq_true, Bool.not_eq_true'] at hwf
    obtain ⟨⟨hne, hall⟩, hfrac⟩ := hwf
    have hne' : ip ≠ [] := fun e => by subst e; simp at hne
    rcases frac with _ | (_ | fp)
    · rw [show renderMant (.intFrac ip none) ++ X = ip ++ X by simp [renderMant]]
      exact alt2_ok1 (pmap_ok _ (ppair_ok (digit1_ok X hne' hall hd) (fracopt_none hdot)))
    · rw [show renderMant (.intFrac ip (some none)) ++ X = ip ++ ('.' :: X) by
        simp [renderMant]]
      have h2 : opt (ppair (charP '.') (opt digit1)) ('.' :: X)
          = .ok X (some ('.', none)) :=
        opt_ok (ppair_ok (charP_ok '.' X) (opt_err (digit1_fail hd)))
      exact alt2_ok1 (pmap_ok _ (ppair_ok (digit1_ok ('.' :: X) hne' hall rfl) h2))
    · simp only [Bool.and_eq_true, Bool.not_eq_true'] at hfrac
      obtain ⟨hfne, hfall⟩ := hfrac
      have hfne' : fp ≠ [] := fun e => by subst e; simp at hfne
      rw [show renderMant (.intFrac ip (some (some fp))) ++ X
          = ip ++ ('.' :: (fp ++ X)) by simp [renderMant]]
      have h2 : opt (ppair (charP '.') (opt digit1)) ('.' :: (fp ++ X))
          = .ok X (some ('.', some fp)) :=
        opt_ok (ppair_ok (charP_ok '.' (fp ++ X)) (opt_ok (digit1_ok X hfne' hfall hd)))
      exact alt2_ok1 (pmap_ok _ (ppair_ok (digit1_ok ('.' :: (fp ++ X)) hne' hall rfl) h2))
  | dotFrac fp =>
    simp only [wfMant, Bool.and_eq_true, Bool.not_eq_true'] at hwf
    obtain ⟨hne, hall⟩ := hwf
    have hne' : fp ≠ [] := fun e => by subst e; simp at hne
    rw [show renderMant (.dotFrac fp) ++ X = '.' :: (fp ++ X) by simp [renderMant]]
    have h1 : float_mantissa ('.' :: (fp ++ X))
        = pmap (fun _ => ()) (ppair (charP '.') digit1) ('.' :: (fp ++ X)) :=
      alt2_err1 (pmap_err _ (ppair_err1 (digit1_fail rfl)))
    rw [h1]
    exact pmap_ok _ (ppair_ok (charP_ok '.' (fp ++ X)) (digit1_ok X hne' hall hd))

/-- The exponent parser consumes exactly a rendered exponent part when the
following character is not a digit (and, for the empty exponent, the
position does not start with `e`/`E`). -/
theorem exp_rt (e : Option ExpPart) (X : List Char) (hwf : wfExp e = true)
    (hd : headNot isDigitC X = true)
    (he : headNot (fun c => c = 'e' || c = 'E') X = true) :
    float_exp (renderExp e ++ X) = .ok X () := by
  cases e with
  | none =>
    cases X with
    | nil => rfl
    | cons c t =>
      simp only [headNot, Bool.not_eq_true', Bool.or_eq_false_iff,
        decide_eq_false_iff_not] at he
      rw [show renderExp none ++ (c :: t) = c :: t by simp [renderExp]]
      exact pmap_ok _ (opt_err (ppair_err1
        ((alt2_err1 (charP_ne t he.1)).trans (charP_ne t he.2))))
  | some ep =>
    obtain ⟨ec, esg, eds⟩ := ep
    simp only [wfExp, Bool.and_eq_true, Bool.not_eq_true', Bool.or_eq_true,
      decide_eq_true_eq] at hwf
    obtain ⟨⟨⟨hec, hsg⟩, hne⟩, hall⟩ := hwf
    have hne' : eds ≠ [] := fun h => by subst h; simp at hne
    have hdig : digit1 (eds ++ X) = .ok X eds := digit1_ok X hne' hall hd
    have hsgn : opt (alt2 (charP '+') (charP '-')) (renderSign esg ++ (eds ++ X))
        = .ok (eds ++ X) esg := by
      apply sign_rt hsg
      rcases eds with _ | ⟨d, ds⟩
      · exact absurd rfl hne'
      · have hd0 : isDigitC d = true := by
          simp only [List.all_cons, Bool.and_eq_true] at hall
          exact hall.1
        simp only [List.cons_append, headNot, Bool.not_eq_true',
          Bool.or_eq_false_iff, decide_eq_false_iff_not]
        exact ⟨digit_ne hd0 (by decide), digit_ne hd0 (by decide)⟩
    have hee : alt2 (charP 'e') (charP 'E') (ec :: (renderSign esg ++ (eds ++ X)))
        = .ok (renderSign esg ++ (eds ++ X)) ec := by
      rcases hec with hec | hec <;> subst hec
      · exact alt2_ok1 (charP_ok 'e' _)
      · exact (alt2_err1 (charP_ne _ (by decide))).trans (charP_ok 'E' _)
    rw [show renderExp (some ⟨ec, esg, eds⟩) ++ X
        = ec :: (renderSign esg ++ (eds ++ X)) by simp [renderExp]]
    exact pmap_ok _ (opt_ok (ppair_ok hee (ppair_ok hsgn hdig)))

/-- Head of a rendered mantissa is a digit or a dot, never a sign. -/
theorem mant_head {m : Mant} (h : wfMant m = true) (Y : List Char) :
    headNot (fun c => c = '+' || c = '-') (renderMant m ++ Y) = true := by
  cases m with
  | intFrac ip frac =>
    simp only [wfMant, Bool.and_eq_true, Bool.not_eq_true'] at h
    rcases ip with _ | ⟨d, ds⟩
    · exact absurd h.1.1 (by simp)
    · have hd0 : isDigitC d = true := by
        have := h.1.2
        simp only [List.all_cons, Bool.and_eq_true] at this
        exact this.1
      simp only [renderMant, List.cons_append, List.append_assoc, headNot,
        Bool.not_eq_true', Bool.or_eq_false_iff, decide_eq_false_iff_not]
      exact ⟨digit_ne hd0 (by decide), digit_ne hd0 (by decide)⟩
  | dotFrac fp =>
    simp [renderMant, headNot]

/-- `recognize_float` consumes exactly a rendered literal at a literal
boundary. -/
theorem rt_float (nl : NumLit) (rest : List Char) (hwf : wfNum nl = true)
    (hb : numBoundary rest = true) :
    recognize_float (renderNum nl ++ rest) = .ok rest (renderNum nl) := by
  obtain ⟨msign, mant, nexp⟩ := nl
  simp only [wfNum, Bool.and_eq_true] at hwf
  obtain ⟨⟨hs, hm⟩, hex⟩ := hwf
  obtain ⟨hbd, hbdot, hbe⟩ := numBoundary_spec hb
  have hmd : headNot isDigitC (renderExp nexp ++ rest) = true := by
    cases nexp with
    | none => simpa [renderExp] using hbd
    | some ep =>
      have hec := hex
      simp only [wfExp, Bool.and_eq_true, Bool.or_eq_true, decide_eq_true_eq] at hec
      rcases hec.1.1.1 with h | h <;>
        simp [renderExp, headNot, List.cons_append, h] <;> decide
  have hmdot : headNot (fun c => c = '.') (renderExp nexp ++ rest) = true := by
    cases nexp with
    | none => simpa [renderExp] using hbdot
    | some ep =>
      have hec := hex
      simp only [wfExp, Bool.and_eq_true, Bool.or_eq_true, decide_eq_true_eq] at hec
      rcases hec.1.1.1 with h | h <;>
        simp [renderExp, headNot, List.cons_append, h]
  have hM : float_mantissa (renderMant mant ++ (renderExp nexp ++ rest))
      = .ok (renderExp nexp ++ rest) () := mantissa_rt _ _ hm hmd hmdot
  have hE : float_exp (renderExp nexp ++ rest) = .ok rest () := exp_rt _ _ hex hbd hbe
  have hS : opt (alt2 (charP '+') (charP '-'))
      (renderSign msign ++ (renderMant mant ++ (renderExp nexp ++ rest)))
        = .ok (renderMant mant ++ (renderExp nexp ++ rest)) msign :=
    sign_rt hs _ (mant_head hm _)
  have hinner : ppair (opt (alt2 (charP '+') (charP '-')))
      (ppair float_mantissa float_exp)
      (renderNum ⟨msign, mant, nexp⟩ ++ rest) = .ok rest (msign, ((), ())) := by
    rw [show (renderNum ⟨msign, mant, nexp⟩ : List Char) ++ rest
        = renderSign msign ++ (renderMant mant ++ (renderExp nexp ++ rest)) by
          simp [renderNum, List.append_assoc]]
    exact ppair_ok hS (ppair_ok hM hE)
  exact recognize_of hinner

/-- `number` round-trip on a rendered literal. -/
theorem number_rt (nl : NumLit) (rest : List Char) (hwf : wfNum nl = true)
    (hb : numBoundary rest = true) :
    number (renderNum nl ++ rest) = .ok rest (.Number (decimalVal (renderNum nl))) := by
  have h := rt_float nl rest hwf hb
  exact pmap_ok _ (pmap_ok _ h)

/-!
## Lemmas: the value dispatcher's failing alternatives
-/

theorem recognize_err {p : Parser α} {i : List Char} {e}
    (h : p i = .err e) : recognize p i = .err e := by
  simp [recognize, h]

theorem terminated_err1 {p : Parser α} {q : Parser β} {i : List Char} {e}
    (hp : p i = .err e) : terminated p q i = .err e := by
  simp [terminated, pbind, hp]

theorem delimited_err1 {p : Parser α} {q : Parser β} {r : Parser γ}
    {i : List Char} {e} (hp : p i = .err e) : delimited p q r i = .err e :=
  preceded_err hp

theorem separated_pair_err1 {p : Parser α} {sep : Parser γ} {q : Parser β}
    {i : List Char} {e} (hp : p i = .err e) : separated_pair p sep q i = .err e := by
  simp [separated_pair, pbind, hp]

theorem null_ok (r : List Char) : null (['n', 'u', 'l', 'l'] ++ r) = .ok r .Null :=
  pmap_ok _ (tagP_ok _ r)

theorem null_fail {c : Char} (r : List Char) (h : c ≠ 'n') :
    null (c :: r) = .err (c :: r, .Tag) :=
  pmap_err _ (tagP_cons_ne _ r h)

theorem boolean_true_ok (r : List Char) :
    boolean (['t', 'r', 'u', 'e'] ++ r) = .ok r (.Boolean true) :=
  alt2_ok1 (pmap_ok _ (tagP_ok _ r))

theorem boolean_false_ok (r : List Char) :
    boolean (['f', 'a', 'l', 's', 'e'] ++ r) = .ok r (.Boolean false) :=
  (alt2_err1 (pmap_err _ (tagP_cons_ne _ _ (by decide)))).trans
    (pmap_ok _ (tagP_ok _ r))

theorem boolean_fail {c : Char} (r : List Char) (h1 : c ≠ 't') (h2 : c ≠ 'f') :
    boolean (c :: r) = .err (c :: r, .Tag) :=
  (alt2_err1 (pmap_err _ (tagP_cons_ne _ r h1))).trans
    (pmap_err _ (tagP_cons_ne _ r h2))

theorem number_fail {c : Char} (r : List Char) (h1 : isDigitC c = false)
    (h2 : c ≠ '.') (h3 : c ≠ '+') (h4 : c ≠ '-') :
    number (c :: r) = .err (c :: r, .Char) := by
  have hsg : opt (alt2 (charP '+') (charP '-')) (c :: r) = .ok (c :: r) none :=
    sign_none (by simp [headNot, h3, h4])
  have hman : float_mantissa (c :: r) = .err (c :: r, .Char) := by
    have hdig : digit1 (c :: r) = .err (c :: r, .Digit) :=
      digit1_fail (by simp [headNot, h1])
    exact (alt2_err1 (pmap_err _ (ppair_err1 hdig))).trans
      (pmap_err _ (ppair_err1 (charP_ne r h2)))
  exact pmap_err _ (pmap_err _ (recognize_err (ppair_err2 hsg (ppair_err1 hman))))

theorem string_fail {c : Char} (r : List Char) (h : c ≠ '"') :
    string (c :: r) = .err (c :: r, .Char) :=
  pmap_err _ (delimited_err1 (charP_ne r h))

theorem arrayP_fail {v : Parser Value} {c : Char} (r : List Char) (h : c ≠ '[') :
    arrayP v (c :: r) = .err (c :: r, .Char) :=
  pmap_err _ (delimited_err1 (charP_ne r h))

theorem objectP_fail {v : Parser Value} {c : Char} (r : List Char) (h : c ≠ '{') :
    objectP v (c :: r) = .err (c :: r, .Char) :=
  pmap_err _ (delimited_err1 (terminated_err1 (charP_ne r h)))

/-- The six-way dispatcher fails on a character no alternative accepts;
the reported error is the last alternative's (the `ws`-wrapped `{` of
`object`). -/
theorem inner_fail {v : Parser Value} {c : Char} (r : List Char)
    (hn : c ≠ 'n') (ht : c ≠ 't') (hf : c ≠ 'f') (hd : isDigitC c = false)
    (hdot : c ≠ '.') (hpl : c ≠ '+') (hmi : c ≠ '-') (hq : c ≠ '"')
    (hbr : c ≠ '[') (hbc : c ≠ '{') :
    value_innerP v (c :: r) = .err (c :: r, .Char) :=
  (alt2_err1 (null_fail r hn)).trans
    ((alt2_err1 (boolean_fail r ht hf)).trans
      ((alt2_err1 (number_fail r hd hdot hpl hmi)).trans
        ((alt2_err1 (string_fail r hq)).trans
          ((alt2_err1 (arrayP_fail r hbr)).trans (objectP_fail r hbc)))))

/-- `value` (any fuel) fails at a closing/separator character. -/
theorem valueF_fail_close (fuel : Nat) {c : Char} (r : List Char)
    (hc : c = ']' ∨ c = '}' ∨ c = ',') :
    ∃ e, valueF fuel (c :: r) = .err e := by
  cases fuel with
  | zero => exact ⟨_, rfl⟩
  | succ f =>
    have hws : js_spaces (c :: r) = .ok (c :: r) [] := by
      rcases hc with h | h | h <;> subst h <;> exact js_spaces_none rfl
    have hin : value_innerP (valueF f) (c :: r) = .err (c :: r, .Char) := by
      rcases hc with h | h | h <;> subst h <;>
        exact inner_fail r (by decide) (by decide) (by decide) (by decide)
          (by decide) (by decide) (by decide) (by decide) (by decide) (by decide)
    exact ⟨_, delimited_err2 hws hin⟩

/-- The object-item parser fails at the closing brace. -/
theorem objItemP_fail_close (v : Parser Value) (r : List Char) :
    objItemP v ('}' :: r) = .err ('}' :: r, .Char) := by
  have h1 : js_string ('}' :: r) = .err ('}' :: r, .Char) :=
    delimited_err1 (charP_ne r (by decide))
  have h2 : ws js_string ('}' :: r) = .err ('}' :: r, .Char) := terminated_err1 h1
  show separated_pair (ws js_string) (ws (charP ':')) v ('}' :: r) = _
  exact separated_pair_err1 h2

/-!
## Lemmas: rendered document shapes
-/

theorem renderMant_ne_nil {m : Mant} (h : wfMant m = true) : renderMant m ≠ [] := by
  cases m with
  | intFrac ip frac =>
    simp only [wfMant, Bool.and_eq_true, Bool.not_eq_true'] at h
    have : ip ≠ [] := fun e => by subst e; simp at h
    cases ip with
    | nil => exact absurd rfl this
    | cons a t => simp [renderMant]
  | dotFrac fp => simp [renderMant]

theorem renderNum_ne_nil {nl : NumLit} (h : wfNum nl = true) : renderNum nl ≠ [] := by
  obtain ⟨msign, mant, nexp⟩ := nl
  simp only [wfNum, Bool.and_eq_true] at h
  have hm := renderMant_ne_nil h.1.2
  intro hx
  have hlen := congrArg List.length hx
  simp only [renderNum, List.length_append, List.length_nil] at hlen
  have hz : (renderMant mant).length = 0 := by omega
  exact hm (List.eq_nil_of_length_eq_zero hz)

theorem renderDoc_ne_nil {d : Doc} (h : wfDoc d = true) : renderDoc d ≠ [] := by
  cases d with
  | nullD => simp [renderDoc]
  | boolD b => cases b <;> simp [renderDoc]
  | numD nl => simpa [renderDoc] using renderNum_ne_nil (by simpa [wfDoc] using h)
  | strD items => simp [renderDoc]
  | arrD es => simp [renderDoc]
  | objD w0 ps => simp [renderDoc]

/-- The head of a rendered number literal is a sign, a digit, or a dot. -/
theorem renderNum_head {nl : NumLit} (h : wfNum nl = true) {c : Char} {t : List Char}
    (hct : renderNum nl = c :: t) :
    isDigitC c = true ∨ c = '.' ∨ c = '+' ∨ c = '-' := by
  obtain ⟨msign, mant, nexp⟩ := nl
  simp only [wfNum, Bool.and_eq_true] at h
  obtain ⟨⟨hs, hm⟩, -⟩ := h
  cases msign with
  | some c' =>
    simp only [wfSign, Bool.or_eq_true, decide_eq_true_eq] at hs
    simp only [renderNum, renderSign, List.cons_append, List.cons.injEq] at hct
    rcases hct with ⟨rfl, -⟩
    tauto
  | none =>
    cases mant with
    | intFrac ip frac =>
      simp only [wfMant, Bool.and_eq_true, Bool.not_eq_true'] at hm
      cases ip with
      | nil => exact absurd hm.1.1 (by simp)
      | cons a t' =>
        have ha : isDigitC a = true := by
          have := hm.1.2
          simp only [List.all_cons, Bool.and_eq_true] at this
          exact this.1
        simp only [renderNum, renderSign, renderMant, List.nil_append,
          List.cons_append, List.append_assoc, List.cons.injEq] at hct
        rcases hct with ⟨rfl, -⟩
        exact Or.inl ha
    | dotFrac fp =>
      simp only [renderNum, renderSign, renderMant, List.nil_append,
        List.cons_append, List.cons.injEq] at hct
      rcases hct with ⟨rfl, -⟩
      tauto

theorem renderNum_head_not_ws {nl : NumLit} (h : wfNum nl = true) (Y : List Char) :
    headNot isWsChar (renderNum nl ++ Y) = true := by
  rcases hrn : renderNum nl with _ | ⟨c, t⟩
  · exact absurd hrn (renderNum_ne_nil h)
  · have hh := renderNum_head h hrn
    simp only [List.cons_append, headNot, Bool.not_eq_true']
    rcases hh with hc | hc | hc | hc
    · exact digit_not_ws hc
    · subst hc; rfl
    · subst hc; rfl
    · subst hc; rfl

/-- The head of a rendered document is never whitespace. -/
theorem renderDoc_head_not_ws {d : Doc} (h : wfDoc d = true) (Y : List Char) :
    headNot isWsChar (renderDoc d ++ Y) = true := by
  cases d with
  | nullD => rfl
  | boolD b => cases b <;> rfl
  | numD nl =>
    simp only [renderDoc]
    exact renderNum_head_not_ws (by simpa [wfDoc] using h) Y
  | strD items => rfl
  | arrD es => rfl
  | objD w0 ps => rfl

/-- What follows an array element in a rendered array. -/
theorem follows_elems (tl : Elems) (r : List Char) :
    followsOk (renderElemsTail tl ++ ']' :: r) = true := by
  cases tl <;> rfl

/-- What follows an object pair in a rendered object. -/
theorem follows_pairs (tl : Pairs) (r : List Char) :
    followsOk (renderPairsTail tl ++ '}' :: r) = true := by
  cases tl <;> rfl

theorem followsOk_headNot {r : List Char} (h : followsOk r = true) :
    headNot isWsChar r = true := by
  cases r with
  | nil => rfl
  | cons c t =>
    simp only [followsOk, Bool.or_eq_true, decide_eq_true_eq] at h
    rcases h with (h | h) | h <;> subst h <;> rfl

theorem numBoundary_of {w2 rest : List Char} (h2 : wsOnly w2 = true)
    (hr : followsOk rest = true) : numBoundary (w2 ++ rest) = true := by
  cases w2 with
  | nil =>
    cases rest with
    | nil => rfl
    | cons c t =>
      simp only [followsOk, Bool.or_eq_true, decide_eq_true_eq] at hr
      rcases hr with (h | h) | h <;> subst h <;> rfl
  | cons c t =>
    have hc : isWsChar c = true := by
      simp only [wsOnly, List.all_cons, Bool.and_eq_true] at h2
      exact h2.1
    rcases ws_char_cases hc with h | h | h | h <;> subst h <;> rfl

/-!
## Lemmas: the dispatcher on each rendered alternative
-/

theorem inner_null (v : Parser Value) (X : List Char) :
    value_innerP v (['n', 'u', 'l', 'l'] ++ X) = .ok X .Null :=
  alt2_ok1 (null_ok X)

theorem inner_true (v : Parser Value) (X : List Char) :
    value_innerP v (['t', 'r', 'u', 'e'] ++ X) = .ok X (.Boolean true) :=
  (alt2_err1 (null_fail _ (by decide))).trans (alt2_ok1 (boolean_true_ok X))

theorem inner_false (v : Parser Value) (X : List Char) :
    value_innerP v (['f', 'a', 'l', 's', 'e'] ++ X) = .ok X (.Boolean false) :=
  (alt2_err1 (null_fail _ (by decide))).trans (alt2_ok1 (boolean_false_ok X))

theorem inner_number (v : Parser Value) {nl : NumLit} (hwf : wfNum nl = true)
    {X : List Char} (hb : numBoundary X = true) :
    value_innerP v (renderNum nl ++ X)
      = .ok X (.Number (decimalVal (renderNum nl))) := by
  rcases hrn : renderNum nl with _ | ⟨c, t⟩
  · exact absurd hrn (renderNum_ne_nil hwf)
  have hh := renderNum_head hwf hrn
  have hnn : c ≠ 'n' := by
    rcases hh with hc | hc | hc | hc
    · exact digit_ne hc (by decide)
    · subst hc; decide
    · subst hc; decide
    · subst hc; decide
  have hnt : c ≠ 't' := by
    rcases hh with hc | hc | hc | hc
    · exact digit_ne hc (by decide)
    · subst hc; decide
    · subst hc; decide
    · subst hc; decide
  have hnf : c ≠ 'f' := by
    rcases hh with hc | hc | hc | hc
    · exact digit_ne hc (by decide)
    · subst hc; decide
    · subst hc; decide
    · subst hc; decide
  have e1 : null ((c :: t) ++ X) = .err (c :: (t ++ X), .Tag) :=
    null_fail (t ++ X) hnn
  have e2 : boolean ((c :: t) ++ X) = .err (c :: (t ++ X), .Tag) :=
    boolean_fail (t ++ X) hnt hnf
  have hnum := number_rt nl X hwf hb
  rw [hrn] at hnum
  exact (alt2_err1 e1).trans ((alt2_err1 e2).trans (alt2_ok1 hnum))

theorem inner_string (v : Parser Value) (items : List SChar)
    (hkey : items.all wfSChar = true) (X : List Char) :
    value_innerP v ('"' :: renderItems items ++ '"' :: X)
      = .ok X (.String (items.map evalSChar)) :=
  (alt2_err1 (null_fail _ (by decide))).trans
    ((alt2_err1 (boolean_fail _ (by decide) (by decide))).trans
      ((alt2_err1 (number_fail _ (by decide) (by decide) (by decide) (by decide))).trans
        (alt2_ok1 (pmap_ok _ (js_string_rt items hkey X)))))

theorem inner_array (v : Parser Value) {B X : List Char} {vs : List Value}
    (hsl : separated_list (charP ',') v B = .ok (']' :: X) vs) :
    value_innerP v ('[' :: B) = .ok X (.Array vs) :=
  (alt2_err1 (null_fail _ (by decide))).trans
    ((alt2_err1 (boolean_fail _ (by decide) (by decide))).trans
      ((alt2_err1 (number_fail _ (by decide) (by decide) (by decide) (by decide))).trans
        ((alt2_err1 (string_fail _ (by decide))).trans
          (alt2_ok1 (pmap_ok _
            (delimited_ok (charP_ok '[' B) hsl (charP_ok ']' X)))))))

theorem inner_object (v : Parser Value) {w B X : List Char}
    {kvs : List (List Char × Value)}
    (hw : wsOnly w = true) (hhead : headNot isWsChar B = true)
    (hsl : separated_list (ws (charP ',')) (objItemP v) B = .ok ('}' :: X) kvs) :
    value_innerP v ('{' :: (w ++ B)) = .ok X (.Object (collectPairs kvs)) := by
  have hbrace : ws (charP '{') ('{' :: (w ++ B)) = .ok B '{' :=
    terminated_ok (charP_ok '{' _) (js_spaces_eq hw hhead)
  have hobj : objectP v ('{' :: (w ++ B)) = .ok X (.Object (collectPairs kvs)) := by
    show pmap (fun kv => Value.Object (collectPairs kv))
      (delimited (ws (charP '{'))
        (separated_list (ws (charP ',')) (objItemP v)) (charP '}')) _ = _
    exact pmap_ok _ (delimited_ok hbrace hsl (charP_ok '}' X))
  exact (alt2_err1 (null_fail _ (by decide))).trans
    ((alt2_err1 (boolean_fail _ (by decide) (by decide))).trans
      ((alt2_err1 (number_fail _ (by decide) (by decide) (by decide) (by decide))).trans
        ((alt2_err1 (string_fail _ (by decide))).trans
          ((alt2_err1 (arrayP_fail _ (by decide))).trans hobj))))

/-- The object-item parser on a rendered pair, the value parse supplied as
a premise. -/
theorem objItem_parse {v : Parser Value} (key : List SChar) (wk wc : List Char)
    {body rest : List Char} {val : Value}
    (hkey : key.all wfSChar = true) (hwk : wsOnly wk = true) (hwc : wsOnly wc = true)
    (hbody : headNot isWsChar body = true)
    (hv : v body = .ok rest val) :
    objItemP v ('"' :: renderItems key ++ '"' :: (wk ++ ':' :: (wc ++ body)))
      = .ok rest (key.map evalSChar, val) := by
  have hks : ws js_string ('"' :: renderItems key ++ '"' :: (wk ++ ':' :: (wc ++ body)))
      = .ok (':' :: (wc ++ body)) (key.map evalSChar) :=
    terminated_ok (js_string_rt key hkey _) (js_spaces_eq hwk rfl)
  have hcolon : ws (charP ':') (':' :: (wc ++ body)) = .ok body ':' :=
    terminated_ok (charP_ok ':' _) (js_spaces_eq hwc hbody)
  show separated_pair (ws js_string) (ws (charP ':')) v _ = _
  exact separated_pair_ok hks hcolon hv

theorem wsOnly_append {a b : List Char} (ha : wsOnly a = true) (hb : wsOnly b = true) :
    wsOnly (a ++ b) = true := by
  simp only [wsOnly, List.all_append, Bool.and_eq_true]
  exact ⟨ha, hb⟩

theorem headWp_ws {ps : Pairs} (h : wfPairs ps = true) : wsOnly (headWp ps) = true := by
  cases ps with
  | nil => rfl
  | cons wp key wk wc d wv tl =>
    simp only [wfPairs, Bool.and_eq_true] at h
    exact h.1.1.1.1.1.1

theorem pairs_head (ps : Pairs) (X : List Char) :
    headNot isWsChar (renderPairs ps ++ '}' :: X) = true := by
  cases ps <;> rfl

/-!
## The render/parse round trip
-/

mutual
/-- A rendered well-formed document, wrapped in whitespace and followed by
a boundary character (or nothing), parses to its value, consuming
everything up to the boundary. -/
theorem rt_value (d : Doc) (fuel : Nat) (w1 w2 rest : List Char)
    (hwf : wfDoc d = true) (hne : needDoc d < fuel)
    (h1 : wsOnly w1 = true) (h2 : wsOnly w2 = true) (hr : followsOk rest = true) :
    valueF fuel (w1 ++ (renderDoc d ++ (w2 ++ rest))) = .ok rest (evalDoc d) := by
  obtain ⟨f, rfl⟩ : ∃ f, fuel = f + 1 := ⟨fuel - 1, by omega⟩
  have hws1 : js_spaces (w1 ++ (renderDoc d ++ (w2 ++ rest)))
      = .ok (renderDoc d ++ (w2 ++ rest)) w1 :=
    js_spaces_eq h1 (renderDoc_head_not_ws hwf _)
  have hws2 : js_spaces (w2 ++ rest) = .ok rest w2 :=
    js_spaces_eq h2 (followsOk_headNot hr)
  have hin : value_innerP (valueF f) (renderDoc d ++ (w2 ++ rest))
      = .ok (w2 ++ rest) (evalDoc d) := by
    cases d with
    | nullD => exact inner_null _ _
    | boolD b =>
      cases b
      · exact inner_false _ _
      · exact inner_true _ _
    | numD nl => exact inner_number _ hwf (numBoundary_of h2 hr)
    | strD items =>
      rw [show renderDoc (.strD items) ++ (w2 ++ rest)
          = '"' :: renderItems items ++ '"' :: (w2 ++ rest) by simp [renderDoc]]
      exact inner_string _ items hwf _
    | arrD es =>
      have hlt : needElems es < f := by
        have : needElems es + 1 < f + 1 := hne
        omega
      have hsl := rt_elems es f (w2 ++ rest) hwf hlt
      rw [show renderDoc (.arrD es) ++ (w2 ++ rest)
          = '[' :: (renderElems es ++ ']' :: (w2 ++ rest)) by simp [renderDoc]]
      exact inner_array _ hsl
    | objD w0 ps =>
      simp only [wfDoc, Bool.and_eq_true] at hwf
      obtain ⟨hw0, hps⟩ := hwf
      have hlt : needPairs ps < f := by
        have : needPairs ps + 1 < f + 1 := hne
        omega
      have hsl := rt_pairs ps f (w2 ++ rest) hps hlt
      rw [show renderDoc (.objD w0 ps) ++ (w2 ++ rest)
          = '{' :: ((w0 ++ headWp ps) ++ (renderPairs ps ++ '}' :: (w2 ++ rest))) by
            simp [renderDoc]]
      exact inner_object _ (wsOnly_append hw0 (headWp_ws hps)) (pairs_head ps _) hsl
  show delimited js_spaces (value_innerP (valueF f)) js_spaces _ = _
  exact delimited_ok hws1 hin hws2

/-- The array-element list parser on rendered elements, stopping at `]`. -/
theorem rt_elems (es : Elems) (fuel : Nat) (rest : List Char)
    (hwf : wfElems es = true) (hne : needElems es < fuel) :
    separated_list (charP ',') (valueF fuel) (renderElems es ++ ']' :: rest)
      = .ok (']' :: rest) (evalElems es) := by
  cases es with
  | nil =>
    obtain ⟨e, he⟩ := valueF_fail_close fuel rest (Or.inl rfl)
    simp only [renderElems, List.nil_append, separated_list, he]
    rfl
  | cons w1 d w2 tl =>
    simp only [wfElems, Bool.and_eq_true] at hwf
    obtain ⟨⟨⟨hw1, hd⟩, hw2⟩, htl⟩ := hwf
    have hmax := Nat.max_lt.mp (show max (needDoc d) (needElems tl) < fuel from hne)
    have helem := rt_value d fuel w1 w2 (renderElemsTail tl ++ ']' :: rest)
      hd hmax.1 hw1 hw2 (follows_elems tl rest)
    have hp : 0 < (renderDoc d).length := List.length_pos.mpr (renderDoc_ne_nil hd)
    have hlen1 : (renderElemsTail tl ++ ']' :: rest).length
        < (w1 ++ (renderDoc d ++ (w2 ++ (renderElemsTail tl ++ ']' :: rest)))).length := by
      simp only [List.length_append]
      omega
    have htail := rt_elems_tail tl fuel
      ((renderElemsTail tl ++ ']' :: rest).length + 1) rest htl hmax.2 (by omega)
    rw [show renderElems (.cons w1 d w2 tl) ++ ']' :: rest
        = w1 ++ (renderDoc d ++ (w2 ++ (renderElemsTail tl ++ ']' :: rest))) by
          simp [renderElems, List.append_assoc]]
    simp only [separated_list, helem]
    rw [if_pos hlen1]
    simp only [htail]
    rfl

/-- The array-element separator loop on rendered elements, each preceded
by its comma, stopping at `]`. -/
theorem rt_elems_tail (es : Elems) (fuel f : Nat) (rest : List Char)
    (hwf : wfElems es = true) (hne : needElems es < fuel)
    (hf : (renderElemsTail es ++ ']' :: rest).length < f) :
    sepListF (charP ',') (valueF fuel) f (renderElemsTail es ++ ']' :: rest)
      = .ok (']' :: rest) (evalElems es) := by
  obtain ⟨g, rfl⟩ : ∃ g, f = g + 1 := ⟨f - 1, by omega⟩
  cases es with
  | nil =>
    simp only [renderElemsTail, List.nil_append, sepListF,
      charP_ne rest (show (']' : Char) ≠ ',' by decide)]
    rfl
  | cons w1 d w2 tl =>
    simp only [wfElems, Bool.and_eq_true] at hwf
    obtain ⟨⟨⟨hw1, hd⟩, hw2⟩, htl⟩ := hwf
    have hmax := Nat.max_lt.mp (show max (needDoc d) (needElems tl) < fuel from hne)
    have helem := rt_value d fuel w1 w2 (renderElemsTail tl ++ ']' :: rest)
      hd hmax.1 hw1 hw2 (follows_elems tl rest)
    have hp : 0 < (renderDoc d).length := List.length_pos.mpr (renderDoc_ne_nil hd)
    simp only [renderElemsTail, List.length_append, List.length_cons] at hf
    have hfg : (renderElemsTail tl ++ ']' :: rest).length < g := by
      simp only [List.length_append, List.length_cons]
      omega
    have htail := rt_elems_tail tl fuel g rest htl hmax.2 hfg
    rw [show renderElemsTail (.cons w1 d w2 tl) ++ ']' :: rest
        = ',' :: (w1 ++ (renderDoc d ++ (w2 ++ (renderElemsTail tl ++ ']' :: rest)))) by
          simp [renderElemsTail, List.append_assoc]]
    simp only [sepListF, charP_ok]
    rw [if_pos (by simp only [List.length_cons]; omega)]
    simp only [helem]
    rw [if_pos (by simp only [List.length_append, List.length_cons]; omega)]
    simp only [htail]
    rfl

/-- The object-pair list parser on rendered pairs, stopping at `}`. -/
theorem rt_pairs (ps : Pairs) (fuel : Nat) (rest : List Char)
    (hwf : wfPairs ps = true) (hne : needPairs ps < fuel) :
    separated_list (ws (charP ',')) (objItemP (valueF fuel))
        (renderPairs ps ++ '}' :: rest)
      = .ok ('}' :: rest) (evalPairs ps) := by
  cases ps with
  | nil =>
    simp only [renderPairs, List.nil_append, separated_list,
      objItemP_fail_close (valueF fuel) rest]
    rfl
  | cons wp key wk wc d wv tl =>
    simp only [wfPairs, Bool.and_eq_true] at hwf
    obtain ⟨⟨⟨⟨⟨⟨hwp, hkey⟩, hwk⟩, hwc⟩, hd⟩, hwv⟩, htl⟩ := hwf
    have hmax := Nat.max_lt.mp (show max (needDoc d) (needPairs tl) < fuel from hne)
    have hv : valueF fuel (renderDoc d ++ (wv ++ (renderPairsTail tl ++ '}' :: rest)))
        = .ok (renderPairsTail tl ++ '}' :: rest) (evalDoc d) := by
      simpa using rt_value d fuel [] wv (renderPairsTail tl ++ '}' :: rest)
        hd hmax.1 rfl hwv (follows_pairs tl rest)
    have hpair := objItem_parse key wk wc hkey hwk hwc
      (renderDoc_head_not_ws hd _) hv
    have hp : 0 < (renderDoc d).length := List.length_pos.mpr (renderDoc_ne_nil hd)
    have hlen1 : (renderPairsTail tl ++ '}' :: rest).length
        < ('"' :: renderItems key ++ '"' :: (wk ++ ':' ::
            (wc ++ (renderDoc d ++ (wv ++ (renderPairsTail tl ++ '}' :: rest)))))).length := by
      simp only [List.length_append, List.length_cons]
      omega
    have htail := rt_pairs_tail tl fuel
      ((renderPairsTail tl ++ '}' :: rest).length + 1) rest htl hmax.2 (by omega)
    rw [show renderPairs (.cons wp key wk wc d wv tl) ++ '}' :: rest
        = '"' :: renderItems key ++ '"' :: (wk ++ ':' ::
            (wc ++ (renderDoc d ++ (wv ++ (renderPairsTail tl ++ '}' :: rest))))) by
          simp [renderPairs, List.append_assoc]]
    simp only [separated_list, hpair]
    rw [if_pos hlen1]
    simp only [htail]
    rfl

/-- The object-pair separator loop on rendered pairs, each preceded by its
comma and leading whitespace, stopping at `}`. -/
theorem rt_pairs_tail (ps : Pairs) (fuel f : Nat) (rest : List Char)
    (hwf : wfPairs ps = true) (hne : needPairs ps < fuel)
    (hf : (renderPairsTail ps ++ '}' :: rest).length < f) :
    sepListF (ws (charP ',')) (objItemP (valueF fuel)) f
        (renderPairsTail ps ++ '}' :: rest)
      = .ok ('}' :: rest) (evalPairs ps) := by
  obtain ⟨g, rfl⟩ : ∃ g, f = g + 1 := ⟨f - 1, by omega⟩
  cases ps with
  | nil =>
    have hsep : ws (charP ',') ('}' :: rest) = .err ('}' :: rest, .Char) :=
      terminated_err1 (charP_ne rest (by decide))
    simp only [renderPairsTail, List.nil_append, sepListF, hsep]
    rfl
  | cons wp key wk wc d wv tl =>
    simp only [wfPairs, Bool.and_eq_true] at hwf
    obtain ⟨⟨⟨⟨⟨⟨hwp, hkey⟩, hwk⟩, hwc⟩, hd⟩, hwv⟩, htl⟩ := hwf
    have hmax := Nat.max_lt.mp (show max (needDoc d) (needPairs tl) < fuel from hne)
    have hv : valueF fuel (renderDoc d ++ (wv ++ (renderPairsTail tl ++ '}' :: rest)))
        = .ok (renderPairsTail tl ++ '}' :: rest) (evalDoc d) := by
      simpa using rt_value d fuel [] wv (renderPairsTail tl ++ '}' :: rest)
        hd hmax.1 rfl hwv (follows_pairs tl rest)
    have hpair := objItem_parse key wk wc hkey hwk hwc
      (renderDoc_head_not_ws hd _) hv
    have hp : 0 < (renderDoc d).length := List.length_pos.mpr (renderDoc_ne_nil hd)
    have hsep : ws (charP ',')
        (',' :: (wp ++ ('"' :: renderItems key ++ '"' :: (wk ++ ':' ::
          (wc ++ (renderDoc d ++ (wv ++ (renderPairsTail tl ++ '}' :: rest))))))))
        = .ok ('"' :: renderItems key ++ '"' :: (wk ++ ':' ::
          (wc ++ (renderDoc d ++ (wv ++ (renderPairsTail tl ++ '}' :: rest)))))) ',' :=
      terminated_ok (charP_ok ',' _) (js_spaces_eq hwp rfl)
    simp only [renderPairsTail, List.length_append, List.length_cons] at hf
    have hfg : (renderPairsTail tl ++ '}' :: rest).length < g := by
      simp only [List.length_append, List.length_cons]
      omega
    have htail := rt_pairs_tail tl fuel g rest htl hmax.2 hfg
    rw [show renderPairsTail (.cons wp key wk wc d wv tl) ++ '}' :: rest
        = ',' :: (wp ++ ('"' :: renderItems key ++ '"' :: (wk ++ ':' ::
            (wc ++ (renderDoc d ++ (wv ++ (renderPairsTail tl ++ '}' :: rest))))))) by
          simp [renderPairsTail, List.append_assoc]]
    simp only [sepListF, hsep]
    rw [if_pos (by simp only [List.length_append, List.length_cons]; omega)]
    simp only [hpair]
    rw [if_pos (by simp only [List.length_append, List.length_cons]; omega)]
    simp only [htail]
    rfl
end

mutual
/-- The recursion depth a document demands never exceeds its printed
length, so the fuel the public `value` supplies is always enough. -/
theorem needDoc_le (d : Doc) : needDoc d ≤ (renderDoc d).length := by
  cases d with
  | nullD => simp [needDoc, renderDoc]
  | boolD b => cases b <;> simp [needDoc, renderDoc]
  | numD nl => simp [needDoc]
  | strD items => simp [needDoc]
  | arrD es =>
    have := needElems_le es
    simp only [needDoc, renderDoc, List.length_cons, List.length_append]
    omega
  | objD w0 ps =>
    have := needPairs_le ps
    simp only [needDoc, renderDoc, List.length_cons, List.length_append]
    omega

theorem needElems_le (es : Elems) : needElems es ≤ (renderElems es).length := by
  cases es with
  | nil => simp [needElems, renderElems]
  | cons w1 d w2 tl =>
    have h1 := needDoc_le d
    have h2 := needElemsTail_le tl
    simp only [needElems, renderElems, List.length_append, Nat.max_le]
    omega

theorem needElemsTail_le (es : Elems) : needElems es ≤ (renderElemsTail es).length := by
  cases es with
  | nil => simp [needElems, renderElemsTail]
  | cons w1 d w2 tl =>
    have h1 := needDoc_le d
    have h2 := needElemsTail_le tl
    simp only [needElems, renderElemsTail, List.length_append, List.length_cons,
      Nat.max_le]
    omega

theorem needPairs_le (ps : Pairs) : needPairs ps ≤ (renderPairs ps).length := by
  cases ps with
  | nil => simp [needPairs, renderPairs]
  | cons wp key wk wc d wv tl =>
    have h1 := needDoc_le d
    have h2 := needPairsTail_le tl
    simp only [needPairs, renderPairs, List.length_append, List.length_cons,
      Nat.max_le]
    omega

theorem needPairsTail_le (ps : Pairs) : needPairs ps ≤ (renderPairsTail ps).length := by
  cases ps with
  | nil => simp [needPairs, renderPairsTail]
  | cons wp key wk wc d wv tl =>
    have h1 := needDoc_le d
    have h2 := needPairsTail_le tl
    simp only [needPairs, renderPairsTail, List.length_append, List.length_cons,
      Nat.max_le]
    omega
end

mutual
/-- A document's value does not depend on its whitespace annotations. -/
theorem evalDoc_strip (d : Doc) : evalDoc (stripDoc d) = evalDoc d := by
  cases d with
  | nullD => rfl
  | boolD b => rfl
  | numD nl => rfl
  | strD items => rfl
  | arrD es => simp only [stripDoc, evalDoc, evalElems_strip es]
  | objD w0 ps => simp only [stripDoc, evalDoc, evalPairs_strip ps]

theorem evalElems_strip (es : Elems) : evalElems (stripElems es) = evalElems es := by
  cases es with
  | nil => rfl
  | cons w1 d w2 tl =>
    simp only [stripElems, evalElems, evalDoc_strip d, evalElems_strip tl]

theorem evalPairs_strip (ps : Pairs) : evalPairs (stripPairs ps) = evalPairs ps := by
  cases ps with
  | nil => rfl
  | cons wp key wk wc d wv tl =>
    simp only [stripPairs, evalPairs, evalDoc_strip d, evalPairs_strip tl]
end

/-- Top-level round trip through the public entry point `value`: a
rendered well-formed document with surrounding whitespace parses fully,
with nothing left over. -/
theorem value_render (d : Doc) (w1 w2 : List Char) (hwf : wfDoc d = true)
    (h1 : wsOnly w1 = true) (h2 : wsOnly w2 = true) :
    value (w1 ++ renderDoc d ++ w2) = .ok [] (evalDoc d) := by
  unfold value
  have hlt : needDoc d < (w1 ++ (renderDoc d ++ w2)).length + 1 := by
    have := needDoc_le d
    simp only [List.length_append]
    omega
  have h := rt_value d ((w1 ++ (renderDoc d ++ w2)).length + 1) w1 w2 [] hwf hlt h1 h2 rfl
  simpa using h

/-!
## The `HashMap` model: duplicate keys
-/

/-- Association-list lookup on the canonical `Object` representation. -/
def lookupKV : List (List Char × Value) → List Char → Option Value
  | [], _ => none
  | (k', v) :: t, k => if k' = k then some v else lookupKV t k

theorem lookupKV_insert (m : List (List Char × Value)) (k : List Char) (v : Value)
    (k' : List Char) :
    lookupKV (insertKV m k v) k' = if k = k' then some v else lookupKV m k' := by
  induction m with
  | nil => simp [insertKV, lookupKV]
  | cons p t ih =>
    obtain ⟨pk, pv⟩ := p
    by_cases hpk : pk = k
    · subst hpk
      simp only [insertKV, if_pos rfl, lookupKV]
      by_cases h : pk = k'
      · simp [h]
      · simp [h]
    · simp only [insertKV, if_neg hpk, lookupKV]
      by_cases h : pk = k'
      · subst h
        have hk : ¬ k = pk := fun e => hpk e.symm
        simp [hk]
      · simp [h, ih]

/-- `collect` on key/value pairs looks up to the value of the key's last
(rightmost) occurrence. -/
theorem lookupKV_collect (kvs : List (List Char × Value)) (k : List Char) :
    lookupKV (collectPairs kvs) k
      = (kvs.reverse.find? (fun p => p.1 == k)).map Prod.snd := by
  induction kvs using List.reverseRecOn with
  | nil => rfl
  | append_singleton l p ih =>
    obtain ⟨pk, pv⟩ := p
    show lookupKV (List.foldl _ [] (l ++ [(pk, pv)])) k = _
    rw [List.foldl_append]
    simp only [List.foldl_cons, List.foldl_nil]
    show lookupKV (insertKV (collectPairs l) pk pv) k = _
    rw [lookupKV_insert, List.reverse_append]
    simp only [List.reverse_cons, List.reverse_nil, List.nil_append,
      List.cons_append, List.find?]
    by_cases h : pk = k
    · simp [h]
    · simp only [h, if_neg h]
      rw [show (pk == k) = false by simpa using h]
      exact ih

/-!
## The claims
-/

/-- C1, counterexample: the claim says `value` succeeds on every valid
JSON text, in particular on the string escapes `\/`, `\b`, `\f` and on
whitespace inside empty brackets.  The code rejects all of them: the
valid JSON documents `"\/"`, `"\b"`, `"\f"` and `[ ]` each produce a
parse error. -/
theorem C1_counterexample_valid_json_rejected :
    value ("\"\\/\"".data) = .err ("\"\\/\"".data, .Char) ∧
    value ("\"\\b\"".data) = .err ("\"\\b\"".data, .Char) ∧
    value ("\"\\f\"".data) = .err ("\"\\f\"".data, .Char) ∧
    value ("[ ]".data) = .err ("[ ]".data, .Char) :=
  ⟨rfl, rfl, rfl, rfl⟩

/-- C1, amended: for every text of the parser's supported grammar — JSON
restricted to the escapes `\"`, `\\`, `\n`, `\r`, `\t` and
`\uXXXX` with a non-surrogate value, with no whitespace between the
brackets of an empty array — surrounded by whitespace only, the top-level
`value` succeeds and the remaining unconsumed text is empty. -/
theorem C1_amended_supported_grammar_parses (d : Doc) (w1 w2 : List Char)
    (hwf : wfDoc d = true) (h1 : wsOnly w1 = true) (h2 : wsOnly w2 = true) :
    value (w1 ++ renderDoc d ++ w2) = .ok [] (evalDoc d) :=
  value_render d w1 w2 hwf h1 h2

/-- Witness for the amended C1 at the document `{ "a" : [ 1 ]}` with a
leading space. -/
theorem C1_amended_witness :
    wfDoc dWitness = true ∧ wsOnly [' '] = true ∧
    value ([' '] ++ renderDoc dWitness ++ [])
      = .ok [] (.Object [("a".data, .Array [.Number 1])]) :=
  ⟨rfl, rfl, C1_amended_supported_grammar_parses dWitness [' '] [] rfl rfl rfl⟩

/-- C2: on a string literal whose `\uXXXX` escape decodes to an unpaired
surrogate, the string parser does not return a parse error as a value —
the source PANICS, through `char::try_from(hex).unwrap()` in
`hex_escape_char`.  Evaluating the code at the failing input `"\uD800"`. -/
theorem C2_surrogate_escape_panics :
    string ("\"\\uD800\"".data) = .panic :=
  rfl

/-- C3, counterexample: the claim says an unrecognized simple escape
passes through unchanged, so that `"a\xb"` decodes to `axb`.  The code
rejects it: `simple_escape_char` accepts only `" \\ n r t`, so the
string parse fails at the backslash. -/
theorem C3_counterexample_unknown_escape_rejected :
    string ("\"a\\xb\"".data) = .err (['\\', 'x', 'b', '"'], .Char) :=
  rfl

/-- C3, amended: for every character `c` outside the recognized escape
set `" \\ n r t` and different from `u`, the string literal `"a\cb"`
is REJECTED by the string parser (the escape does not pass through): the
body loop stops before the backslash and the closing-quote match fails
there. -/
theorem C3_amended_unknown_escape_fails (c : Char)
    (h1 : c ∉ (['"', '\\', 'n', 'r', 't'] : List Char)) (h2 : c ≠ 'u') :
    string ('"' :: 'a' :: '\\' :: c :: 'b' :: '"' :: [])
      = .err ('\\' :: c :: 'b' :: '"' :: [], .Char) := by
  have hhex : hex_escape_char (c :: 'b' :: '"' :: [])
      = .err (c :: 'b' :: '"' :: [], .Char) := by
    simp [hex_escape_char, charP_ne _ h2]
  have hsimp : simple_escape_char (c :: 'b' :: '"' :: [])
      = .err (c :: 'b' :: '"' :: [], .OneOf) :=
    pmap_err _ (one_of_not_mem _ h1)
  have hesc : escape_char ('\\' :: c :: 'b' :: '"' :: [])
      = .err (c :: 'b' :: '"' :: [], .OneOf) :=
    (preceded_ok (charP_ok '\\' _)).trans ((alt2_err1 hhex).trans hsimp)
  have he1 : escape_char ('a' :: '\\' :: c :: 'b' :: '"' :: [])
      = .err ('a' :: '\\' :: c :: 'b' :: '"' :: [], .Char) :=
    preceded_err (charP_ne _ (by decide))
  have hitem : alt2 escape_char normal_char ('a' :: '\\' :: c :: 'b' :: '"' :: [])
      = .ok ('\\' :: c :: 'b' :: '"' :: []) 'a' :=
    (alt2_err1 he1).trans (none_of_not_mem _ (by decide))
  have hstop : alt2 escape_char normal_char ('\\' :: c :: 'b' :: '"' :: [])
      = .err ('\\' :: c :: 'b' :: '"' :: [], .NoneOf) :=
    (alt2_err1 hesc).trans (none_of_mem _ (by decide))
  have hstop' : many0 (alt2 escape_char normal_char) ('\\' :: c :: 'b' :: '"' :: [])
      = .ok ('\\' :: c :: 'b' :: '"' :: []) [] := by
    rw [many0_step]
    simp only [hstop]
  have hlen : ('\\' :: c :: 'b' :: '"' :: []).length
      < ('a' :: '\\' :: c :: 'b' :: '"' :: []).length := by simp
  have hbody : many0 (alt2 escape_char normal_char)
      ('a' :: '\\' :: c :: 'b' :: '"' :: [])
      = .ok ('\\' :: c :: 'b' :: '"' :: []) ['a'] := by
    rw [many0_step]
    simp only [hitem, hlen, if_true, hstop']
  have hjs : js_string ('"' :: 'a' :: '\\' :: c :: 'b' :: '"' :: [])
      = .err ('\\' :: c :: 'b' :: '"' :: [], .Char) :=
    delimited_err3 (charP_ok '"' _) hbody (charP_ne _ (by decide))
  exact pmap_err _ hjs

/-- Witness for the amended C3 at `c = 'q'`. -/
theorem C3_amended_witness :
    ('q' ∉ (['"', '\\', 'n', 'r', 't'] : List Char)) ∧ 'q' ≠ 'u' ∧
    string ('"' :: 'a' :: '\\' :: 'q' :: 'b' :: '"' :: [])
      = .err ('\\' :: 'q' :: 'b' :: '"' :: [], .Char) :=
  ⟨by decide, by decide,
    C3_amended_unknown_escape_fails 'q' (by decide) (by decide)⟩

/-- C4, counterexample: the claim says that when `array` consumes its `[`
and fails deeper, the overall error of `value` is the array's inner
error, propagated unchanged, with no later alternative tried.  On `[1,`
the code instead reports the LAST alternative's (`object`'s) error at the
original position `[1,`, while `array`'s own inner error is at `,` — two
different errors. -/
theorem C4_counterexample_error_not_inner :
    value ("[1,".data) = .err ("[1,".data, .Char) ∧
    array ("[1,".data) = .err ([','], .Char) ∧
    ("[1,".data : List Char) ≠ [','] :=
  ⟨rfl, rfl, by decide⟩

/-- C4, amended: when `array` consumes its `[` and fails deeper with a
recoverable error, `value_inner` still fails overall (no value is
produced), but `alt` backtracks: the later `object` alternative is tried
on the same input, and the dispatcher's result is exactly `object`'s
result. -/
theorem C4_amended_backtracks_to_object (r : List Char) (e : List Char × ErrKind)
    (h : array ('[' :: r) = .err e) :
    value_inner ('[' :: r) = object ('[' :: r) :=
  (alt2_err1 (null_fail _ (by decide))).trans
    ((alt2_err1 (boolean_fail _ (by decide) (by decide))).trans
      ((alt2_err1 (number_fail _ (by decide) (by decide) (by decide) (by decide))).trans
        ((alt2_err1 (string_fail _ (by decide))).trans (alt2_err1 h))))

/-- Witness for the amended C4 at the input `[1,`. -/
theorem C4_amended_witness :
    array ("[1,".data) = .err ([','], .Char) ∧
    value_inner ("[1,".data) = object ("[1,".data) :=
  ⟨rfl, C4_amended_backtracks_to_object ("1,".data) ([','], .Char) rfl⟩

/-- C5: parsing `{"a":1,"a":2}` succeeds and yields an object with the
single entry `a ↦ 2`; and in general, looking up a key in the collected
`HashMap` contents returns the value of the key's last (rightmost)
occurrence in the parsed pair list. -/
theorem C5_duplicate_key_last_wins :
    value ("\x7b\"a\":1,\"a\":2\x7d".data)
      = .ok [] (.Object [("a".data, .Number 2)]) ∧
    ∀ (kvs : List (List Char × Value)) (k : List Char),
      lookupKV (collectPairs kvs) k
        = (kvs.reverse.find? (fun p => p.1 == k)).map Prod.snd :=
  ⟨rfl, lookupKV_collect⟩

/-- C6: rendering the same underlying document with any two whitespace
annotations (after `{`, after a `,` between pairs, after a key, after
`:`, around element values, around the whole document) parses to the same
value, and never turns success into failure. -/
theorem C6_whitespace_insertion_irrelevant (d d' : Doc) (w1 w2 w1' w2' : List Char)
    (hwf : wfDoc d = true) (hwf' : wfDoc d' = true)
    (h1 : wsOnly w1 = true) (h2 : wsOnly w2 = true)
    (h1' : wsOnly w1' = true) (h2' : wsOnly w2' = true)
    (hs : stripDoc d = stripDoc d') :
    value (w1 ++ renderDoc d ++ w2) = .ok [] (evalDoc d) ∧
    value (w1' ++ renderDoc d' ++ w2') = .ok [] (evalDoc d) := by
  have he : evalDoc d = evalDoc d' := by
    rw [← evalDoc_strip d, ← evalDoc_strip d', hs]
  refine ⟨value_render d w1 w2 hwf h1 h2, ?_⟩
  rw [he]
  exact value_render d' w1' w2' hwf' h1' h2'

/-- Witness for C6: `{"a":1}` and `{ "a" : 1 }` parse to the same value. -/
theorem C6_witness :
    stripDoc dCompact = stripDoc dSpaced ∧
    wfDoc dCompact = true ∧ wfDoc dSpaced = true ∧
    value ([] ++ renderDoc dCompact ++ []) = .ok [] (evalDoc dCompact) ∧
    value ([] ++ renderDoc dSpaced ++ []) = .ok [] (evalDoc dCompact) := by
  have h := C6_whitespace_insertion_irrelevant dCompact dSpaced [] [] [] []
    rfl rfl rfl rfl rfl rfl rfl
  exact ⟨rfl, rfl, rfl, h.1, h.2⟩

/-- C7: `[]` parses to the empty array and `\x7b\x7d` (empty braces) to
the empty object, each consuming the whole input. -/
theorem C7_empty_containers :
    value ("[]".data) = .ok [] (.Array []) ∧
    value ("\x7b\x7d".data) = .ok [] (.Object []) :=
  ⟨rfl, rfl⟩

/-- C8: the string parser on `"abd\tbc"foo` succeeds with the decoded
text `abd<TAB>bc` and leftover input `foo` — it does not demand full
consumption. -/
theorem C8_string_leftover :
    string ("\"abd\\tbc\"foo".data) = .ok ("foo".data) (.String ("abd\tbc".data)) :=
  rfl

/-- C9: whitespace directly inside brackets is asymmetric: `{ }`,
`{"a":1 }` and `[1 ]` parse, but `[ ]` is a parse error, because nothing
consumes whitespace between `[` and `]` when the array is empty. -/
theorem C9_whitespace_asymmetry :
    value ("\x7b \x7d".data) = .ok [] (.Object []) ∧
    value ("\x7b\"a\":1 \x7d".data) = .ok [] (.Object [("a".data, .Number 1)]) ∧
    value ("[1 ]".data) = .ok [] (.Array [.Number 1]) ∧
    value ("[ ]".data) = .err ("[ ]".data, .Char) :=
  ⟨rfl, rfl, rfl, rfl⟩

/-- C10: the number parser accepts forms outside JSON's number grammar:
`+1` (leading plus), `.5` (no integer part) and `1.` (dot with no
fraction digits) all succeed, consume the whole literal, and produce the
corresponding numeric value. -/
theorem C10_number_extensions :
    number ("+1".data) = .ok [] (.Number 1) ∧
    number (".5".data) = .ok [] (.Number (mkRat 1 2)) ∧
    number ("1.".data) = .ok [] (.Number 1) :=
  ⟨rfl, rfl, rfl⟩

end JsonRs
